import Mathlib

/-!
Verification development for the claude-chronicle ("clog") indexing and
search core.

The Go source is shallowly embedded:
* Go strings are modelled as Lean `String` values, i.e. as sequences of
  Unicode code points.  Go's byte-level `len`/slicing is modelled at the
  code-point level where no claim depends on the byte/rune distinction;
  where a claim does depend on it (the 200-character tool-result
  truncation, which the source performs with `utf8.RuneCountInString` and
  `utf8.DecodeRuneInString`), the code-point model is exact.
* `encoding/json` unmarshalling is modelled by total functions over an
  inductive `Json` value type; JSON numbers are restricted to integers
  (the only numbers the embedded structs decode are token counts).
  Field lookup is by exact name and keeps the last occurrence, matching
  the decoder's overwrite behaviour for duplicate keys in well-typed
  documents.
* The SQLite store is modelled as explicit lists of rows with
  autoincrement counters; SQL statements of the source are translated
  statement by statement, including the `ON DELETE CASCADE` behaviour of
  `watchlist_matches` and the `UNIQUE` constraints on `files.path` and
  `sessions.session_id`.
* `regexp.Compile` is an external library; it is modelled by an explicit
  `compile : String → Option GoRegex` parameter (the process-wide compile
  cache of the source is semantically transparent because compilation is
  pure).
-/

namespace Clog

/-- JSON values as decoded by `encoding/json`; numbers restricted to
integers, which is all the embedded structs ever decode. -/
inductive Json where
  | null : Json
  | bool : Bool → Json
  | num : Int → Json
  | str : String → Json
  | arr : List Json → Json
  | obj : List (String × Json) → Json

/-- Last binding of a key in an object's field list (`encoding/json`
overwrites on duplicate keys), `none` when absent. -/
def jsonLookup (fields : List (String × Json)) (key : String) : Option Json :=
  match fields with
  | [] => none
  | (k, v) :: rest =>
    match jsonLookup rest key with
    | some r => some r
    | none => if k == key then some v else none

/-- `json.Unmarshal` into a Go `string` variable: succeeds on a JSON
string, and on `null` (which leaves the zero value `""`). -/
def unmarshalString : Json → Option String
  | .str s => some s
  | .null => some ""
  | _ => none

/-- `json.Unmarshal` into a Go `int` field: succeeds on an integral JSON
number, and on `null` (zero value 0). -/
def unmarshalInt : Json → Option Int
  | .num n => some n
  | .null => some (0 : Int)
  | _ => none

/-- Decode one string-typed struct field: absent or `null` gives the zero
value `""`, a string gives the string, anything else is a type error. -/
def getStrField (fields : List (String × Json)) (key : String) : Option String :=
  match jsonLookup fields key with
  | none => some ""
  | some v => unmarshalString v

/-- Decode one int-typed struct field, analogously. -/
def getIntField (fields : List (String × Json)) (key : String) : Option Int :=
  match jsonLookup fields key with
  | none => some (0 : Int)
  | some v => unmarshalInt v

/-- Go struct `contentBlock` of `internal/claude/messages.go` (the
`input` raw field is never read by the parser and is omitted). -/
structure ContentBlock where
  type : String
  text : String
  name : String
deriving DecidableEq

/-- Usage sub-struct of `messageContent`. -/
structure UsageRec where
  inputTokens : Int
  cacheReadInputTokens : Int
  cacheCreationInputTokens : Int
  outputTokens : Int
deriving DecidableEq

/-- Go struct `messageContent`: `content` is kept raw
(`json.RawMessage`), `none` when the field is absent. -/
structure MessageContent where
  role : String
  model : String
  content : Option Json
  usage : Option UsageRec

/-- Go struct `rawMessage`: the envelope of one JSONL line. -/
structure RawMessage where
  type : String
  uuid : String
  timestamp : String
  message : Option Json

/-- Unmarshal a JSON value into `contentBlock`. -/
def unmarshalContentBlock (j : Json) : Option ContentBlock :=
  match j with
  | .obj fields =>
    match getStrField fields "type" with
    | none => none
    | some ty =>
      match getStrField fields "text" with
      | none => none
      | some tx =>
        match getStrField fields "name" with
        | none => none
        | some nm => some ⟨ty, tx, nm⟩
  | .null => some ⟨"", "", ""⟩
  | _ => none

/-- Unmarshal a JSON value into `[]contentBlock`; `null` decodes to the
nil slice. -/
def unmarshalBlocks (j : Json) : Option (List ContentBlock) :=
  match j with
  | .null => some []
  | .arr xs => xs.mapM unmarshalContentBlock
  | _ => none

/-- Unmarshal the `usage` pointer field: absent or `null` gives the nil
pointer. -/
def unmarshalUsage (j : Json) : Option (Option UsageRec) :=
  match j with
  | .null => some none
  | .obj fields =>
    match getIntField fields "input_tokens" with
    | none => none
    | some it =>
      match getIntField fields "cache_read_input_tokens" with
      | none => none
      | some cr =>
        match getIntField fields "cache_creation_input_tokens" with
        | none => none
        | some cc =>
          match getIntField fields "output_tokens" with
          | none => none
          | some ot => some (some ⟨it, cr, cc, ot⟩)
  | _ => none

/-- Unmarshal a JSON value into `messageContent`. -/
def unmarshalMessageContent (j : Json) : Option MessageContent :=
  match j with
  | .obj fields =>
    match getStrField fields "role" with
    | none => none
    | some role =>
      match getStrField fields "model" with
      | none => none
      | some model =>
        match jsonLookup fields "usage" with
        | none => some ⟨role, model, jsonLookup fields "content", none⟩
        | some uj =>
          match unmarshalUsage uj with
          | none => none
          | some u => some ⟨role, model, jsonLookup fields "content", u⟩
  | .null => some ⟨"", "", none, none⟩
  | _ => none

/-- Parsed `Message` of `internal/claude/messages.go`. -/
structure Message where
  type : String
  uuid : String
  timestamp : String
  model : String
  role : String
  text : String
  toolCalls : List String
  toolName : String
  inputTokens : Int
  outputTokens : Int
deriving DecidableEq

/-- Zero value of `Message`, for building records the way the source
does (field by field from the zero struct). -/
def Message.zero : Message := ⟨"", "", "", "", "", "", [], "", 0, 0⟩

/-- `truncate` of messages.go: rune-count bounded truncation with an
ellipsis suffix.  `String.length`/`String.take` count code points, which
is exactly what `utf8.RuneCountInString` and the decode loop compute. -/
def truncate (s : String) (n : Nat) : String :=
  if s.length ≤ n then s else s.take n ++ "..."

/-- `extractText` of messages.go: content is a scalar string or a list of
blocks, whose non-empty `text` blocks are joined by newlines.
The argument is the raw `content` field; `none` models a nil
`json.RawMessage`, on which `json.Unmarshal` errors. -/
def extractText (raw : Option Json) : String :=
  match raw with
  | none => ""
  | some j =>
    match unmarshalString j with
    | some s => s
    | none =>
      match unmarshalBlocks j with
      | none => ""
      | some blocks =>
        String.intercalate "\n"
          ((blocks.filter (fun b => b.type == "text" && b.text != "")).map (·.text))

/-- One element of the anonymous `[]struct{Type; Content json.RawMessage}`
slice of `extractToolResultText`. -/
structure TRBlock where
  type : String
  content : Option Json

/-- Unmarshal one tool-result wrapper block. -/
def unmarshalTRBlock (j : Json) : Option TRBlock :=
  match j with
  | .obj fields =>
    match getStrField fields "type" with
    | none => none
    | some ty => some ⟨ty, jsonLookup fields "content"⟩
  | .null => some ⟨"", none⟩
  | _ => none

/-- Unmarshal the wrapper slice. -/
def unmarshalTRBlocks (j : Json) : Option (List TRBlock) :=
  match j with
  | .null => some []
  | .arr xs => xs.mapM unmarshalTRBlock
  | _ => none

/-- Scan loop of `extractToolResultText`: first `tool_result` block whose
payload yields text wins; a scalar string payload is used directly, a
block-list payload contributes its first `text` block. -/
def scanToolResult : List TRBlock → String
  | [] => ""
  | b :: rest =>
    if b.type == "tool_result" then
      match b.content with
      | none => scanToolResult rest
      | some c =>
        match unmarshalString c with
        | some s => truncate s 200
        | none =>
          match unmarshalBlocks c with
          | none => scanToolResult rest
          | some inner =>
            match inner.find? (fun ib => ib.type == "text") with
            | some ib => truncate ib.text 200
            | none => scanToolResult rest
    else scanToolResult rest

/-- `extractToolResultText` of messages.go. -/
def extractToolResultText (raw : Option Json) : String :=
  match raw with
  | none => ""
  | some j =>
    match unmarshalTRBlocks j with
    | none => ""
    | some blocks => scanToolResult blocks

/-- `parseUserMessage` of messages.go. -/
def parseUserMessage (raw : RawMessage) : Option Message :=
  match raw.message with
  | none => none
  | some mj =>
    match unmarshalMessageContent mj with
    | none => none
    | some mc =>
      let text := extractText mc.content
      if text == "" then none
      else some { Message.zero with
        type := "user", uuid := raw.uuid, timestamp := raw.timestamp,
        role := "user", text := text }

/-- `parseAssistantMessage` of messages.go. -/
def parseAssistantMessage (raw : RawMessage) : Option Message :=
  match raw.message with
  | none => none
  | some mj =>
    match unmarshalMessageContent mj with
    | none => none
    | some mc =>
      match mc.content with
      | none => none
      | some cj =>
        match unmarshalBlocks cj with
        | none => none
        | some blocks =>
          let textParts := (blocks.filter (fun b => b.type == "text" && b.text != "")).map (·.text)
          let toolCalls := (blocks.filter (fun b => b.type == "tool_use")).map (·.name)
          let base := { Message.zero with
            type := "assistant", uuid := raw.uuid, timestamp := raw.timestamp,
            model := mc.model, role := "assistant",
            text := String.intercalate "\n" textParts, toolCalls := toolCalls }
          match mc.usage with
          | none => some base
          | some u => some { base with
              inputTokens := u.inputTokens + u.cacheReadInputTokens + u.cacheCreationInputTokens,
              outputTokens := u.outputTokens }

/-- `parseToolResultMessage` of messages.go. -/
def parseToolResultMessage (raw : RawMessage) : Option Message :=
  match raw.message with
  | none => none
  | some mj =>
    match unmarshalMessageContent mj with
    | none => none
    | some mc =>
      some { Message.zero with
        type := "tool-result", uuid := raw.uuid, timestamp := raw.timestamp,
        role := "tool", text := extractToolResultText mc.content }

/-- `parseSystemMessage` of messages.go: decodes `content` out of the
nested message object, ignoring unmarshal errors (partial decode keeps
the zero value on a type mismatch). -/
def parseSystemMessage (raw : RawMessage) : Option Message :=
  let content :=
    match raw.message with
    | some (.obj fields) =>
      match getStrField fields "content" with
      | some s => s
      | none => ""
    | _ => ""
  some { Message.zero with
    type := "system", uuid := raw.uuid, timestamp := raw.timestamp,
    role := "system", text := content }

/-- `parseMessage` of messages.go: the type dispatch. -/
def parseMessage (raw : RawMessage) : Option Message :=
  if raw.type == "user" then parseUserMessage raw
  else if raw.type == "assistant" then parseAssistantMessage raw
  else if raw.type == "tool-result" then parseToolResultMessage raw
  else if raw.type == "system" then parseSystemMessage raw
  else none

/-- One physical line of the JSONL file as seen after the external
`json.Unmarshal` of the envelope: empty, undecodable, or decoded. -/
inductive LogLine where
  | empty : LogLine
  | malformed : LogLine
  | parsed : RawMessage → LogLine

/-- Line loop of `LoadMessages`: empty and malformed lines are skipped,
decoded lines go through `parseMessage`, discarded ones contribute
nothing.  (The `scanner.Err` channel of the source reports I/O errors
only, which the content model has no counterpart for.) -/
def loadMessages : List LogLine → List Message
  | [] => []
  | .empty :: rest => loadMessages rest
  | .malformed :: rest => loadMessages rest
  | .parsed raw :: rest =>
    match parseMessage raw with
    | none => loadMessages rest
    | some m => m :: loadMessages rest

/-- Does the first list start the second? -/
def listStarts [BEq α] : List α → List α → Bool
  | [], _ => true
  | _ :: _, [] => false
  | a :: as, b :: bs => a == b && listStarts as bs

/-- Contiguous-sublist containment. -/
def listHasSub [BEq α] (needle : List α) : List α → Bool
  | [] => needle.isEmpty
  | b :: rest => listStarts needle (b :: rest) || listHasSub needle rest

/-- `strings.Contains`. -/
def strContains (s sub : String) : Bool :=
  listHasSub sub.toList s.toList

/-- `FormatModel` of messages.go. -/
def formatModel (model : String) : String :=
  if strContains model "opus" then "opus"
  else if strContains model "sonnet" then "sonnet"
  else if strContains model "haiku" then "haiku"
  else model

/-! ## The index store (unnamed store package file, `part_006`/`part_007`) -/

/-- `filepath.Base`: last path component, after stripping trailing
slashes. -/
def baseName (p : String) : String :=
  if p == "" then "."
  else
    let cs := (p.toList.reverse.dropWhile (fun c => c == '/')).reverse
    if cs.isEmpty then "/"
    else String.mk (cs.foldl (fun acc c => if c == '/' then [] else acc ++ [c]) [])

/-- `strings.TrimSuffix`. -/
def trimSuffixStr (s suf : String) : String :=
  if suf.toList.isSuffixOf s.toList then
    String.mk (s.toList.take (s.toList.length - suf.toList.length))
  else s

/-- `sessionID := strings.TrimSuffix(filepath.Base(path), ".jsonl")`. -/
def sessionIdOfPath (path : String) : String :=
  trimSuffixStr (baseName path) ".jsonl"

/-- The `skipTypes` map: JSONL message types not indexed. -/
def skipTypes (t : String) : Bool :=
  t == "progress" || t == "queue-operation" || t == "file-history-snapshot"

/-- Longest prefix of a rune list that fits in a byte budget. -/
def takeRunesUpToBytes (budget : Nat) : List Char → List Char
  | [] => []
  | c :: cs =>
    if c.utf8Size ≤ budget then c :: takeRunesUpToBytes (budget - c.utf8Size) cs
    else []

/-- The 50000-byte FTS text truncation of `indexFile`.  The source slices
the byte array at 50000 (possibly splitting a rune); the model keeps
whole code points up to the same byte budget.  No claim depends on the
sliced content. -/
def ftsTruncate (s : String) : String :=
  if 50000 < s.utf8ByteSize then String.mk (takeRunesUpToBytes 50000 s.toList) else s

/-- A row of the `messages` table. -/
structure MsgRec where
  id : Nat
  sessionId : String
  type : String
  timestamp : String
  model : String
  text : String
  toolCalls : String
  inputTokens : Int
  outputTokens : Int
deriving DecidableEq

/-- A row of the `sessions` table (`session_id` is UNIQUE). -/
structure SessionRec where
  sessionId : String
  fileId : Nat
  project : String
  firstPrompt : String
  gitBranch : String
  model : String
  createdAt : String
  modifiedAt : String
  messageCount : Nat
  totalInputTokens : Int
  totalOutputTokens : Int
  toolCount : Nat
deriving DecidableEq

/-- A row of the `files` table (`path` is UNIQUE). -/
structure FileRec where
  id : Nat
  path : String
  project : String
  sessionId : String
  mtime : Int
  size : Int
  indexedAt : Int
deriving DecidableEq

/-- A row of the `watchlist` table. -/
structure WatchRec where
  id : Nat
  name : String
  pattern : String
  enabled : Bool
  color : String
  createdAt : String
deriving DecidableEq

/-- A row of the `watchlist_matches` table. -/
structure MatchRec where
  id : Nat
  watchlistId : Nat
  messageId : Nat
  sessionId : String
  matchedText : String
  seen : Bool
deriving DecidableEq

/-- The persistent store: table contents plus autoincrement counters
(SQLite rowids start at 1). -/
structure StoreState where
  files : List FileRec
  sessions : List SessionRec
  messages : List MsgRec
  watchlist : List WatchRec
  watchMatches : List MatchRec
  nextFileId : Nat
  nextMsgId : Nat
  nextWatchId : Nat
  nextMatchId : Nat
deriving DecidableEq

/-- The freshly created schema. -/
def initialState : StoreState := ⟨[], [], [], [], [], 1, 1, 1, 1⟩

/-- The session-aggregate accumulator of `indexFile`'s message loop. -/
structure SessAgg where
  firstPrompt : String
  gitBranch : String
  model : String
  createdAt : String
  modifiedAt : String
  totalIn : Int
  totalOut : Int
  toolCount : Nat
  msgCount : Nat
deriving DecidableEq

/-- Zero values of the aggregate variables. -/
def SessAgg.init : SessAgg := ⟨"", "", "", "", "", 0, 0, 0, 0⟩

/-- `firstPrompt[:120]` (rune-level model of the byte slice; the first
prompt of every claim-relevant input is ASCII). -/
def truncRunes (s : String) (n : Nat) : String :=
  if n < s.length then s.take n else s

/-- One iteration of `indexFile`'s aggregate bookkeeping, in source
order: counters, model, created/modified timestamps, first prompt. -/
def updateAgg (agg : SessAgg) (msg : Message) : SessAgg :=
  let agg := { agg with
    msgCount := agg.msgCount + 1,
    totalIn := agg.totalIn + msg.inputTokens,
    totalOut := agg.totalOut + msg.outputTokens,
    toolCount := agg.toolCount + msg.toolCalls.length }
  let agg := if msg.model != "" then { agg with model := formatModel msg.model } else agg
  let agg :=
    if msg.timestamp != "" then
      { agg with
        createdAt := if agg.createdAt == "" then msg.timestamp else agg.createdAt,
        modifiedAt := msg.timestamp }
    else agg
  if agg.firstPrompt == "" && msg.type == "user" && msg.text != "" then
    { agg with firstPrompt := truncRunes msg.text 120 }
  else agg

/-- The `messages` row inserted for one parsed message. -/
def mkMsgRec (sid : String) (id : Nat) (msg : Message) : MsgRec :=
  ⟨id, sid, msg.type, msg.timestamp, msg.model, ftsTruncate msg.text,
    String.intercalate ", " msg.toolCalls, msg.inputTokens, msg.outputTokens⟩

/-- Result of the message-insert loop. -/
structure InsertOut where
  rows : List MsgRec
  nextId : Nat
  agg : SessAgg
  ids : List Nat
deriving DecidableEq

/-- The message loop of `indexFile`: skip `skipTypes` rows, insert one
`messages` row per remaining event (collecting its rowid), and fold the
session aggregates. -/
def insertMsgs (sid : String) (msgs : List Message) (nextId : Nat) (agg : SessAgg) : InsertOut :=
  match msgs with
  | [] => ⟨[], nextId, agg, []⟩
  | msg :: rest =>
    if skipTypes msg.type then insertMsgs sid rest nextId agg
    else
      let out := insertMsgs sid rest (nextId + 1) (updateAgg agg msg)
      ⟨mkMsgRec sid nextId msg :: out.rows, out.nextId, out.agg, nextId :: out.ids⟩

/-- `indexFile` of the store package: one transaction that (1) deletes
the prior generation when a `files` row for `path` exists (messages by
session id, with the `watchlist_matches` FK cascade, then the session,
then the file row), (2) inserts the new file row, (3) inserts one
message row per non-skipped event, (4) inserts the aggregated session
row.  `none` models a failed (rolled-back) transaction: the `UNIQUE`
constraints on `files.path` and `sessions.session_id` are the only
failure points the model can exhibit. -/
def indexFile (now mtime size : Int) (path project : String) (msgs : List Message)
    (st : StoreState) : Option (StoreState × List Nat) :=
  let sessionId := sessionIdOfPath path
  let st1 : StoreState :=
    match st.files.find? (fun f => f.path == path) with
    | some old =>
      let deadIds := (st.messages.filter (fun m => m.sessionId == sessionId)).map (·.id)
      { st with
        messages := st.messages.filter (fun m => !(m.sessionId == sessionId)),
        watchMatches := st.watchMatches.filter (fun wm => !(deadIds.contains wm.messageId)),
        sessions := st.sessions.filter (fun srow => !(srow.sessionId == sessionId)),
        files := st.files.filter (fun f => !(f.id == old.id)) }
    | none => st
  if st1.files.any (fun f => f.path == path) then none
  else
    let fileId := st1.nextFileId
    let out := insertMsgs sessionId msgs st1.nextMsgId SessAgg.init
    if st1.sessions.any (fun srow => srow.sessionId == sessionId) then none
    else
      some ({ st1 with
        files := st1.files ++ [⟨fileId, path, project, sessionId, mtime, size, now⟩],
        nextFileId := fileId + 1,
        messages := st1.messages ++ out.rows,
        nextMsgId := out.nextId,
        sessions := st1.sessions ++
          [⟨sessionId, fileId, project, out.agg.firstPrompt, out.agg.gitBranch,
            out.agg.model, out.agg.createdAt, out.agg.modifiedAt, out.agg.msgCount,
            out.agg.totalIn, out.agg.totalOut, out.agg.toolCount⟩] }, out.ids)

/-! ## The watch engine (`internal/store/watchlist.go`) -/

/-- A compiled Go regexp, reduced to the one operation the watch engine
uses: `FindStringIndex`, the leftmost match as half-open offsets. -/
structure GoRegex where
  find : String → Option (Nat × Nat)

/-- `extractSnippet`: bounded context around a match, newlines collapsed
to spaces, ellipses on truncated sides (offsets modelled at the
code-point level). -/
def extractSnippet (text : String) (matchStart matchEnd contextLen : Nat) : String :=
  let startI : Int := (matchStart : Int) - ((contextLen / 2 : Nat) : Int)
  let start : Nat := if startI < 0 then 0 else startI.toNat
  let endN : Nat := min (matchEnd + contextLen / 2) text.length
  let snippet := String.mk ((text.toList.drop start).take (endN - start))
  let snippet := String.mk (snippet.toList.map (fun c => if c == '\n' then ' ' else c))
  let snippet := if 0 < start then "..." ++ snippet else snippet
  if endN < text.length then snippet ++ "..." else snippet

/-- The per-watch scan common to `matchAllForWatch` and
`MatchNewMessages`: one `watchlist_matches` row per message whose text
the pattern matches (first match only), rowids from `startId`. -/
def matchRowsFor (watchId : Nat) (re : GoRegex) (rows : List MsgRec) (startId : Nat) :
    List MatchRec :=
  match rows with
  | [] => []
  | m :: rest =>
    match re.find m.text with
    | none => matchRowsFor watchId re rest startId
    | some (lo, hi) =>
      ⟨startId, watchId, m.id, m.sessionId, extractSnippet m.text lo hi 100, false⟩ ::
        matchRowsFor watchId re rest (startId + 1)

/-- `matchAllForWatch`: backfill one subscription against every stored
message (the transaction batching of the source is semantically
transparent under the success assumption). -/
def matchAllForWatch (compile : String → Option GoRegex) (item : WatchRec)
    (st : StoreState) : StoreState :=
  match compile item.pattern with
  | none => st
  | some re =>
    let newRows := matchRowsFor item.id re st.messages st.nextMatchId
    { st with watchMatches := st.watchMatches ++ newRows,
              nextMatchId := st.nextMatchId + newRows.length }

/-- Watch loop of `MatchNewMessages`: every enabled subscription with a
compilable pattern is evaluated against exactly the rows whose ids are
in the given list. -/
def matchNewLoop (compile : String → Option GoRegex) (ids : List Nat) :
    List WatchRec → StoreState → StoreState
  | [], st => st
  | w :: rest, st =>
    if w.enabled && (compile w.pattern).isSome then
      match compile w.pattern with
      | none => matchNewLoop compile ids rest st
      | some re =>
        let rows := st.messages.filter (fun m => ids.contains m.id)
        let newRows := matchRowsFor w.id re rows st.nextMatchId
        matchNewLoop compile ids rest
          { st with watchMatches := st.watchMatches ++ newRows,
                    nextMatchId := st.nextMatchId + newRows.length }
    else matchNewLoop compile ids rest st

/-- `MatchNewMessages` (the returned match count is dropped; no claim
mentions it). -/
def matchNewMessages (compile : String → Option GoRegex) (messageIDs : List Nat)
    (st : StoreState) : StoreState :=
  if messageIDs.isEmpty then st
  else matchNewLoop compile messageIDs st.watchlist st

/-- `AddWatch`: reject an uncompilable pattern before any write; on
success insert the subscription (default color as in the source) and
backfill it against the whole message table. -/
def addWatch (compile : String → Option GoRegex) (name pattern color now : String)
    (st : StoreState) : Except String (WatchRec × StoreState) :=
  match compile pattern with
  | none => .error ("invalid regex: " ++ pattern)
  | some _ =>
    let color := if color == "" then "#b56a6a" else color
    let item : WatchRec := ⟨st.nextWatchId, name, pattern, true, color, now⟩
    let st1 := { st with watchlist := st.watchlist ++ [item],
                         nextWatchId := st.nextWatchId + 1 }
    .ok (item, matchAllForWatch compile item st1)

/-- `UpdateWatch`: validate the new pattern first (no mutation on
failure); then update the row, delete all of the subscription's
matches, and re-backfill when the subscription exists and is enabled
(the source runs the backfill in a goroutine; the model sequences it). -/
def updateWatch (compile : String → Option GoRegex) (id : Nat) (name pattern : String)
    (st : StoreState) : Except String StoreState :=
  match compile pattern with
  | none => .error ("invalid regex: " ++ pattern)
  | some _ =>
    let st1 : StoreState := { st with watchlist := st.watchlist.map (fun w =>
      if w.id == id then { w with name := name, pattern := pattern } else w) }
    let st2 : StoreState :=
      { st1 with watchMatches := st1.watchMatches.filter (fun wm => !(wm.watchlistId == id)) }
    match st2.watchlist.find? (fun w => w.id == id) with
    | some item => if item.enabled then .ok (matchAllForWatch compile item st2) else .ok st2
    | none => .ok st2

/-- `RemoveWatch` with the `watchlist_matches` FK cascade. -/
def removeWatch (id : Nat) (st : StoreState) : StoreState :=
  { st with watchlist := st.watchlist.filter (fun w => !(w.id == id)),
            watchMatches := st.watchMatches.filter (fun wm => !(wm.watchlistId == id)) }

/-- `ToggleWatch`. -/
def toggleWatch (id : Nat) (st : StoreState) : StoreState :=
  { st with watchlist := st.watchlist.map (fun w =>
    if w.id == id then { w with enabled := !w.enabled } else w) }

/-! ## The operations reachable states are built from.

`index` is one changed-file step of `IndexChanged`/`IndexAll`: a
successful `indexFile` followed by `MatchNewMessages` over exactly the
rowids that `indexFile` inserted (a failed `indexFile` is skipped and
contributes no ids).  The watch mutations are the public watchlist
API. -/
inductive Op where
  | index (now mtime size : Int) (path project : String) (msgs : List Message)
  | add (name pattern color now : String)
  | update (id : Nat) (name pattern : String)
  | remove (id : Nat)
  | toggle (id : Nat)

/-- Apply one operation (API errors leave the store unchanged, as the
corresponding Go paths do). -/
def applyOp (compile : String → Option GoRegex) (st : StoreState) : Op → StoreState
  | .index now mtime size path project msgs =>
    match indexFile now mtime size path project msgs st with
    | none => st
    | some (st', ids) => matchNewMessages compile ids st'
  | .add name pattern color now =>
    match addWatch compile name pattern color now st with
    | .ok (_, st') => st'
    | .error _ => st
  | .update id name pattern =>
    match updateWatch compile id name pattern st with
    | .ok st' => st'
    | .error _ => st
  | .remove id => removeWatch id st
  | .toggle id => toggleWatch id st

/-- Run a sequence of operations from the freshly created schema. -/
def runOps (compile : String → Option GoRegex) (ops : List Op) : StoreState :=
  ops.foldl (applyOp compile) initialState

/-! ## The query engine (`internal/store/filters.go`, `search.go`) -/

/-- `FilterField` of filters.go. -/
inductive FilterField where
  | model | branch | project | type | tool | tokens | age
deriving DecidableEq

/-- `FilterOp` of filters.go. -/
inductive FilterOp where
  | equals | greaterThan | lessThan | like
deriving DecidableEq

/-- `Filter` of filters.go. -/
structure Filter where
  field : FilterField
  op : FilterOp
  value : String
deriving DecidableEq

/-- `FilterSet` of filters.go. -/
structure FilterSet where
  FreeText : String
  Filters : List Filter
deriving DecidableEq

/-- Rune loop of `tokenize`: split on whitespace outside quotes, a `"`
toggles quoting and is kept in the token.  (`unicode.IsSpace` is
modelled by `Char.isWhitespace`; the two agree on ASCII input.) -/
def tokenizeLoop : List Char → List Char → Bool → List String
  | [], cur, _ => if cur.isEmpty then [] else [String.mk cur.reverse]
  | r :: rest, cur, inQuote =>
    if r == '"' then tokenizeLoop rest (r :: cur) (!inQuote)
    else if r.isWhitespace && !inQuote then
      if cur.isEmpty then tokenizeLoop rest [] inQuote
      else String.mk cur.reverse :: tokenizeLoop rest [] inQuote
    else tokenizeLoop rest (r :: cur) inQuote

/-- `tokenize` of filters.go. -/
def tokenize (query : String) : List String :=
  tokenizeLoop query.toList [] false

/-- Split a rune list at its first `:` (the colon excluded); `none` when
there is no colon. -/
def splitFirstColon : List Char → Option (List Char × List Char)
  | [] => none
  | c :: rest =>
    if c == ':' then some ([], rest)
    else
      match splitFirstColon rest with
      | none => none
      | some (before, after) => some (c :: before, after)

/-- ASCII lowercasing (`strings.ToLower` restricted to the ASCII field
names the parser compares against). -/
def asciiLower (c : Char) : Char :=
  if 'A' ≤ c && c ≤ 'Z' then Char.ofNat (c.toNat + 32) else c

/-- Lowercase a string, ASCII-wise. -/
def lowerStr (s : String) : String :=
  String.mk (s.toList.map asciiLower)

/-- `parseFilter` of filters.go: `field:value` with optional `>`/`<`
operator before the value; a missing colon, a colon in first or last
position, or an unrecognized field name make the token free text. -/
def parseFilter (token : String) : Option Filter :=
  match splitFirstColon token.toList with
  | none => none
  | some (before, after) =>
    if before.isEmpty || after.isEmpty then none
    else
      let fieldName := lowerStr (String.mk before)
      let ff : Option FilterField :=
        if fieldName == "model" then some .model
        else if fieldName == "branch" then some .branch
        else if fieldName == "project" then some .project
        else if fieldName == "type" then some .type
        else if fieldName == "tool" then some .tool
        else if fieldName == "tokens" then some .tokens
        else if fieldName == "age" then some .age
        else none
      match ff with
      | none => none
      | some f =>
        match after with
        | '>' :: rest => some ⟨f, .greaterThan, String.mk rest⟩
        | '<' :: rest => some ⟨f, .lessThan, String.mk rest⟩
        | _ => some ⟨f, .equals, String.mk after⟩

/-- `Parse` of filters.go: classify each token, rejoin the free-text
tokens with single spaces. -/
def Parse (query : String) : FilterSet :=
  let tokens := tokenize query
  ⟨String.intercalate " " (tokens.filter (fun t => (parseFilter t).isNone)),
   tokens.filterMap parseFilter⟩

/-- `FilterSet.IsEmpty`. -/
def FilterSet.IsEmpty (fs : FilterSet) : Bool :=
  fs.FreeText == "" && fs.Filters.isEmpty

/-- `FilterSet.HasFTS`. -/
def FilterSet.HasFTS (fs : FilterSet) : Bool :=
  fs.FreeText != ""

/-- `strconv.Atoi`: optional sign, decimal digits, 64-bit range check
(out-of-range input returns `ErrRange`, which every caller treats as
failure). -/
def parseDigits : List Char → Nat → Option Nat
  | [], acc => some acc
  | c :: rest, acc =>
    if '0' ≤ c && c ≤ '9' then parseDigits rest (acc * 10 + (c.toNat - '0'.toNat))
    else none

/-- `strconv.Atoi` proper. -/
def goAtoi (s : String) : Option Int :=
  let cs := s.toList
  let signStripped : Bool × List Char :=
    match cs with
    | '+' :: r => (false, r)
    | '-' :: r => (true, r)
    | r => (false, r)
  if signStripped.2.isEmpty then none
  else
    match parseDigits signStripped.2 0 with
    | none => none
    | some n =>
      let v : Int := if signStripped.1 then -(n : Int) else (n : Int)
      if v < -(2 ^ 63) || (2 ^ 63 : Int) ≤ v then none else some v

/-- Two's-complement wrap-around of `int64` arithmetic (Go defines
signed overflow to wrap). -/
def i64wrap (x : Int) : Int :=
  (x + 2 ^ 63).emod (2 ^ 64) - 2 ^ 63

/-- Nanoseconds per age unit (`time.Minute`, `time.Hour`, `24h`, `7*24h`). -/
def nanosPerUnit (unit : Char) : Option Int :=
  if unit == 'm' then some 60000000000
  else if unit == 'h' then some 3600000000000
  else if unit == 'd' then some 86400000000000
  else if unit == 'w' then some 604800000000000
  else none

/-- `parseAge` of filters.go: `<N><unit>`, duration in `int64`
nanoseconds (the chained `Duration` multiplications wrap; the single
wrap below is congruent to the chain). -/
def parseAge (s : String) : Option Int :=
  let cs := s.toList
  if cs.length < 2 then none
  else
    match cs.getLast? with
    | none => none
    | some unit =>
      match goAtoi (String.mk cs.dropLast) with
      | none => none
      | some num =>
        match nanosPerUnit unit with
        | none => none
        | some nanos => some (i64wrap (num * nanos))

/-- The `FilterAge` branch of `filterToSQL`, read at the instant level:
the source compares `s.modified_at` with the RFC3339 rendering of
`now − duration` lexicographically, and for the uniformly formatted
UTC timestamps of the log that string order is instant order.  `none`
models the `("", nil)` return (the filter contributes no predicate). -/
def ageFilterToSQL (now : Int) (op : FilterOp) (value : String) : Option (Int → Bool) :=
  match parseAge value with
  | none => none
  | some dur =>
    let cutoff := now - dur
    match op with
    | .lessThan => some (fun modifiedAt => decide (cutoff < modifiedAt))
    | .greaterThan => some (fun modifiedAt => decide (modifiedAt < cutoff))
    | _ => some (fun modifiedAt => decide (cutoff < modifiedAt))

/-- SQLite `LIKE` matching (`%`/`_` wildcards, ASCII case folding),
by fuel-bounded backtracking; `pattern.length + text.length` bounds the
recursion depth exactly. -/
def likeFuel : Nat → List Char → List Char → Bool
  | 0, p, t => p.isEmpty && t.isEmpty
  | _ + 1, [], t => t.isEmpty
  | fuel + 1, '%' :: ps, t =>
    likeFuel fuel ps t ||
      (match t with
       | [] => false
       | _ :: t2 => likeFuel fuel ('%' :: ps) t2)
  | fuel + 1, '_' :: ps, t =>
    (match t with
     | [] => false
     | _ :: t2 => likeFuel fuel ps t2)
  | fuel + 1, c :: ps, t =>
    (match t with
     | [] => false
     | d :: t2 => (asciiLower c == asciiLower d) && likeFuel fuel ps t2)

/-- `s LIKE pattern`. -/
def likeMatch (s pattern : String) : Bool :=
  likeFuel (pattern.length + s.length) pattern.toList s.toList

/-- `strings.ReplaceAll(value, "*", "%")` of the branch-glob case. -/
def globToLike (v : String) : String :=
  String.mk (v.toList.map (fun c => if c == '*' then '%' else c))

/-- `ftsQuery` of filters.go: `|`-separated alternatives become an
`OR`-joined FTS query. -/
def ftsQuery (input : String) : String :=
  if input.toList.contains '|' then
    String.intercalate " OR "
      (((input.splitOn "|").map (·.trim)).filter (fun p => p != ""))
  else input

/-- Stand-in for the external FTS5 engine's `MATCH` over the mirrored
`text`/`tool_calls` columns: each `OR` alternative matches when all of
its words occur in the row (quotes stripped; porter stemming and
ranking are not modelled — no claim depends on them). -/
def ftsMatchPred (q : String) (m : MsgRec) : Bool :=
  let hay := (m.text ++ " " ++ m.toolCalls).toList
  ((q.splitOn " OR ").map (fun alt => (alt.splitOn " ").filter (fun w => w != ""))).any
    (fun alt => alt.all (fun w =>
      listHasSub (w.toList.filter (fun c => !(c == '"'))) hay))

/-- One structured filter as a row predicate — `filterToSQL` of
filters.go, statement by statement.  `fmtCutoff` models
`time.Now().Add(-dur).Format(time.RFC3339)` for the age case;
`none` models the `("", nil)` return. -/
def filterToSQLRow (fmtCutoff : Int → String) (f : Filter) :
    Option (MsgRec → SessionRec → Bool) :=
  match f.field with
  | .model => some (fun _ srow => likeMatch srow.model ("%" ++ f.value ++ "%"))
  | .branch =>
    if f.value.toList.contains '*' then
      some (fun _ srow => likeMatch srow.gitBranch (globToLike f.value))
    else some (fun _ srow => srow.gitBranch == f.value)
  | .project => some (fun _ srow => likeMatch srow.project ("%" ++ f.value ++ "%"))
  | .type => some (fun m _ => m.type == f.value)
  | .tool => some (fun m _ => likeMatch m.toolCalls ("%" ++ f.value ++ "%"))
  | .tokens =>
    match goAtoi f.value with
    | none => none
    | some n =>
      some (fun m _ =>
        match f.op with
        | .greaterThan => decide (n < m.inputTokens + m.outputTokens)
        | .lessThan => decide (m.inputTokens + m.outputTokens < n)
        | _ => m.inputTokens + m.outputTokens == n)
  | .age =>
    match parseAge f.value with
    | none => none
    | some dur =>
      let cutoff := fmtCutoff dur
      some (fun _ srow =>
        match f.op with
        | .lessThan => decide (cutoff < srow.modifiedAt)
        | .greaterThan => decide (srow.modifiedAt < cutoff)
        | _ => decide (cutoff < srow.modifiedAt))

/-- `FilterSet.ToSQL` as one row predicate: the conjunction of the FTS
match (when free text is present) and every contributing filter; with
no conditions the clause is `1=1`, i.e. `true`. -/
def toSQLPred (fmtCutoff : Int → String) (fs : FilterSet) (m : MsgRec)
    (srow : SessionRec) : Bool :=
  (if fs.FreeText != "" then ftsMatchPred (ftsQuery fs.FreeText) m else true) &&
    fs.Filters.all (fun f =>
      match filterToSQLRow fmtCutoff f with
      | none => true
      | some p => p m srow)

/-- One row of `Search`'s result set (the FTS rank is dropped; display
truncation at the code-point level; `highlight()` is modelled by the
raw text). -/
structure SearchResult where
  messageId : Nat
  sessionId : String
  project : String
  messageType : String
  timestamp : String
  text : String
  highlighted : String
  firstPrompt : String
  gitBranch : String
  model : String
deriving DecidableEq

/-- Display truncation of the result scan loop. -/
def displayTrunc (s : String) (n : Nat) : String :=
  if n < s.length then s.take n ++ "..." else s

/-- Build one `SearchResult` from a joined row. -/
def mkSearchResult (m : MsgRec) (srow : SessionRec) : SearchResult :=
  ⟨m.id, m.sessionId, srow.project, m.type, m.timestamp,
    displayTrunc m.text 200, displayTrunc m.text 300,
    srow.firstPrompt, srow.gitBranch, srow.model⟩

/-- `ORDER BY s.modified_at DESC, m.timestamp DESC` as a Boolean
"comes no later than" relation. -/
def orderKeyLe (a b : MsgRec × SessionRec) : Bool :=
  if a.2.modifiedAt == b.2.modifiedAt then decide (b.1.timestamp ≤ a.1.timestamp)
  else decide (b.2.modifiedAt < a.2.modifiedAt)

/-- Insertion into a sorted list. -/
def insertSorted (le : α → α → Bool) (x : α) : List α → List α
  | [] => [x]
  | y :: ys => if le x y then x :: y :: ys else y :: insertSorted le x ys

/-- Stable insertion sort (the deterministic model of the `ORDER BY`). -/
def sortByBool (le : α → α → Bool) : List α → List α
  | [] => []
  | x :: xs => insertSorted le x (sortByBool le xs)

/-- The query `Search` executes when the filter set is non-empty: join
messages to sessions on the session id, apply the WHERE predicate,
order (relevance order of the FTS engine is modelled as row order),
apply the LIMIT, and build the result rows. -/
def executeSearch (fmtCutoff : Int → String) (fs : FilterSet) (limit : Nat)
    (st : StoreState) : List SearchResult :=
  let joined := st.messages.filterMap (fun m =>
    (st.sessions.find? (fun srow => srow.sessionId == m.sessionId)).map
      (fun srow => (m, srow)))
  let rows := joined.filter (fun ms => toSQLPred fmtCutoff fs ms.1 ms.2)
  let rows := if fs.HasFTS then rows else sortByBool orderKeyLe rows
  (rows.take limit).map (fun ms => mkSearchResult ms.1 ms.2)

/-- `Search` of search.go: parse the query; an empty filter set returns
`nil, nil` before any SQL is built or executed (the model's result is a
plain list — the source's error return is nil on this path). -/
def search (fmtCutoff : Int → String) (query : String) (limit : Nat)
    (st : StoreState) : List SearchResult :=
  let fs := Parse query
  if fs.IsEmpty then [] else executeSearch fmtCutoff fs limit st

/-! ## Specification-side helpers and invariants referenced by the
claims. -/

/-- The `messages` rows of one session. -/
def messagesOf (st : StoreState) (sid : String) : List MsgRec :=
  st.messages.filter (fun m => m.sessionId == sid)

/-- The `sessions` row of one session id. -/
def sessionOf (st : StoreState) (sid : String) : Option SessionRec :=
  st.sessions.find? (fun srow => srow.sessionId == sid)

/-- The events of a parsed file that `indexFile` stores (everything not
in `skipTypes`). -/
def storedEvents (msgs : List Message) : List Message :=
  msgs.filter (fun m => !(skipTypes m.type))

/-- The message rows one generation of a file contributes, with rowids
from `k` (the pure content of `insertMsgs`). -/
def mkMsgRows (sid : String) (k : Nat) : List Message → List MsgRec
  | [] => []
  | msg :: rest =>
    if skipTypes msg.type then mkMsgRows sid k rest
    else mkMsgRec sid k msg :: mkMsgRows sid (k + 1) rest

/-- The session aggregate a list of parsed messages produces. -/
def sessAggOf (msgs : List Message) : SessAgg :=
  (storedEvents msgs).foldl updateAgg SessAgg.init

/-- The non-empty timestamps of the stored events, in file order. -/
def tsListOf (msgs : List Message) : List String :=
  ((storedEvents msgs).map (fun m => m.timestamp)).filter (fun t => t != "")

/-- The application-level invariant the indexing pipeline upholds (the
spec's "not a strict foreign key ... but an invariant"): every message
row's session id has a session row. -/
def StoreWF (st : StoreState) : Prop :=
  ∀ m ∈ st.messages, ∃ srow ∈ st.sessions, srow.sessionId = m.sessionId

instance (st : StoreState) : Decidable (StoreWF st) := by
  unfold StoreWF; infer_instance

/-- At most one match row per (subscription, message) pair. -/
def MatchPairsUnique (l : List MatchRec) : Prop :=
  l.Pairwise (fun a b => a.watchlistId ≠ b.watchlistId ∨ a.messageId ≠ b.messageId)

/-- No stale match rows: every match references a live message row. -/
def NoStaleMatches (st : StoreState) : Prop :=
  ∀ wm ∈ st.watchMatches, ∃ m ∈ st.messages, m.id = wm.messageId

/-- The inductive invariant of the store machine: match-pair
uniqueness, no stale matches, distinct bounded rowids, and match rows
referencing live subscriptions. -/
def StoreInv (st : StoreState) : Prop :=
  MatchPairsUnique st.watchMatches ∧
  NoStaleMatches st ∧
  st.messages.Pairwise (fun a b => a.id ≠ b.id) ∧
  (∀ m ∈ st.messages, m.id < st.nextMsgId) ∧
  st.watchlist.Pairwise (fun a b => a.id ≠ b.id) ∧
  (∀ w ∈ st.watchlist, w.id < st.nextWatchId) ∧
  (∀ wm ∈ st.watchMatches, ∃ w ∈ st.watchlist, w.id = wm.watchlistId)

/-- Scan helper for `toolResultFirstText`. -/
def toolResultFirstTextScan : List TRBlock → Option String
  | [] => none
  | b :: rest =>
    if b.type == "tool_result" then
      match b.content with
      | none => toolResultFirstTextScan rest
      | some c =>
        match unmarshalString c with
        | some s => some s
        | none =>
          match unmarshalBlocks c with
          | none => toolResultFirstTextScan rest
          | some inner =>
            match inner.find? (fun ib => ib.type == "text") with
            | some ib => some ib.text
            | none => toolResultFirstTextScan rest
    else toolResultFirstTextScan rest

/-- Spec-side reading of the tool-result extraction (§4.1 of the spec:
"payload as scalar or as a list of typed segments — only the first
`text` segment found is kept"): the untruncated text the first
successful `tool_result` segment yields. -/
def toolResultFirstText (raw : Option Json) : Option String :=
  match raw with
  | none => none
  | some j =>
    match unmarshalTRBlocks j with
    | none => none
    | some blocks => toolResultFirstTextScan blocks

/-! ## Concrete fixtures used by witness theorems. -/

/-- A compile function on which every pattern is invalid (one admissible
behaviour of `regexp.Compile`, e.g. on `"[invalid"`-like patterns). -/
def noCompile : String → Option GoRegex := fun _ => none

/-- A store holding one message, one subscription and one match row. -/
def c5St : StoreState :=
  ⟨[⟨1, "/a/s.jsonl", "p", "s", 0, 0, 0⟩],
   [⟨"s", 1, "p", "deploy now", "", "", "t", "t", 1, 0, 0, 0⟩],
   [⟨1, "s", "user", "t", "", "deploy now", "", 0, 0⟩],
   [⟨1, "w", "deploy", true, "#fff", "t"⟩],
   [⟨1, 1, 1, "s", "deploy now", false⟩], 2, 2, 2, 2⟩

/-- A store holding one indexed message. -/
def c10St : StoreState :=
  ⟨[⟨1, "/a/s.jsonl", "p", "s", 0, 0, 0⟩],
   [⟨"s", 1, "p", "hello world", "", "", "t", "t", 1, 0, 0, 0⟩],
   [⟨1, "s", "user", "t", "", "hello world", "", 0, 0⟩], [], [], 2, 2, 1, 1⟩

/-- The nested message object of the spec's token-aggregation example
(input 100, cache-read 20, cache-creation 10, output 50). -/
def c8Json : Json :=
  .obj [("role", .str "assistant"), ("model", .str "m-sonnet"),
        ("content", .arr [.obj [("type", .str "text"), ("text", .str "ok")]]),
        ("usage", .obj [("input_tokens", .num 100), ("output_tokens", .num 50),
                        ("cache_read_input_tokens", .num 20),
                        ("cache_creation_input_tokens", .num 10)])]

/-- The enclosing assistant event. -/
def c8Raw : RawMessage := ⟨"assistant", "a1", "t1", some c8Json⟩

/-- Its decoded `messageContent`. -/
def c8Mc : MessageContent :=
  ⟨"assistant", "m-sonnet",
   some (.arr [.obj [("type", .str "text"), ("text", .str "ok")]]),
   some ⟨100, 20, 10, 50⟩⟩

/-- Its usage record. -/
def c8U : UsageRec := ⟨100, 20, 10, 50⟩

/-- The parsed message the example stores. -/
def c8Msg : Message := ⟨"assistant", "a1", "t1", "m-sonnet", "assistant", "ok", [], "", 130, 50⟩

/-- A well-formed user line. -/
def c9Good : LogLine :=
  .parsed ⟨"user", "u1", "t1", some (.obj [("role", .str "user"), ("content", .str "hello")])⟩

/-- An event of a type the dispatch does not recognize. -/
def c9UnknownRaw : RawMessage := ⟨"progress", "p1", "t", none⟩

/-- A user event whose extracted text is empty. -/
def c9EmptyUserRaw : RawMessage := ⟨"user", "u2", "t", some (.obj [("content", .str "")])⟩

/-- A parsed file whose two events appear in decreasing timestamp
order. -/
def c4Msgs : List Message :=
  [{ Message.zero with type := "user", text := "b", timestamp := "2025-01-02T00:00:00Z" },
   { Message.zero with type := "user", text := "a", timestamp := "2025-01-01T00:00:00Z" }]

/-- Indexing that file into an empty store. -/
def c4Result : Option (StoreState × List Nat) :=
  indexFile 0 0 0 "/a/s.jsonl" "p" c4Msgs initialState

/-- The same two events in increasing (append-only) timestamp order. -/
def c4wMsgs : List Message :=
  [{ Message.zero with type := "user", text := "a", timestamp := "2025-01-01T00:00:00Z" },
   { Message.zero with type := "user", text := "b", timestamp := "2025-01-02T00:00:00Z" }]

/-- A parsed file with one user event, one assistant event (tokens
130/50, one tool call) and one skipped `progress` event. -/
def c1Msgs : List Message :=
  [{ Message.zero with type := "user", text := "hi", timestamp := "t1" },
   ⟨"assistant", "", "t2", "m-opus", "", "yo", ["Read"], "", 130, 50⟩,
   { Message.zero with type := "progress" }]

/-- The store obtained by indexing `c1Msgs` into an empty store. -/
def c1St : StoreState :=
  ⟨[⟨1, "/a/s.jsonl", "p", "s", 0, 0, 0⟩],
   [⟨"s", 1, "p", "hi", "", "opus", "t1", "t2", 2, 130, 50, 1⟩],
   [⟨1, "s", "user", "t1", "", "hi", "", 0, 0⟩,
    ⟨2, "s", "assistant", "t2", "m-opus", "yo", "Read", 130, 50⟩],
   [], [], 2, 3, 1, 1⟩

/-- The store obtained by indexing `c4wMsgs` into an empty store. -/
def c4wSt : StoreState :=
  ⟨[⟨1, "/a/s.jsonl", "p", "s", 0, 0, 0⟩],
   [⟨"s", 1, "p", "a", "", "", "2025-01-01T00:00:00Z", "2025-01-02T00:00:00Z", 2, 0, 0, 0⟩],
   [⟨1, "s", "user", "2025-01-01T00:00:00Z", "", "a", "", 0, 0⟩,
    ⟨2, "s", "user", "2025-01-02T00:00:00Z", "", "b", "", 0, 0⟩],
   [], [], 2, 3, 1, 1⟩

end Clog

namespace Clog

/-! # Theorems -/

/-- C8: for every assistant event carrying a usage record, the parsed
message's `inputTokens` is `input_tokens + cache_read_input_tokens +
cache_creation_input_tokens` and its `outputTokens` is `output_tokens`. -/
theorem assistant_usage_aggregation (raw : RawMessage) (j : Json) (mc : MessageContent)
    (u : UsageRec) (msg : Message)
    (hm : raw.message = some j)
    (hmc : unmarshalMessageContent j = some mc)
    (hu : mc.usage = some u)
    (hp : parseAssistantMessage raw = some msg) :
    msg.inputTokens = u.inputTokens + u.cacheReadInputTokens + u.cacheCreationInputTokens ∧
    msg.outputTokens = u.outputTokens := by
  simp only [parseAssistantMessage, hm, hmc] at hp
  rcases hc : mc.content with _ | cj
  · simp [hc] at hp
  · simp only [hc] at hp
    rcases hb : unmarshalBlocks cj with _ | blocks
    · simp [hb] at hp
    · simp only [hb, hu, Option.some.injEq] at hp
      subst hp
      exact ⟨rfl, rfl⟩

/-- C8 witness: the spec's 100/20/10/50 example is stored with effective
input tokens 130 and output tokens 50. -/
theorem assistant_usage_aggregation_witness :
    c8Raw.message = some c8Json ∧
    unmarshalMessageContent c8Json = some c8Mc ∧
    c8Mc.usage = some c8U ∧
    parseAssistantMessage c8Raw = some c8Msg ∧
    c8Msg.inputTokens = 130 ∧ c8Msg.outputTokens = 50 := by
  refine ⟨rfl, rfl, rfl, rfl, ?_, ?_⟩
  · have h := assistant_usage_aggregation c8Raw c8Json c8Mc c8U c8Msg rfl rfl rfl rfl
    rw [h.1]; decide
  · have h := assistant_usage_aggregation c8Raw c8Json c8Mc c8U c8Msg rfl rfl rfl rfl
    rw [h.2]; decide

/-- C10: a query whose parse yields no free text and no filters makes
`Search` return the empty result list, for every store state (no query
is executed against the store: the result does not depend on it). -/
theorem empty_query_matches_nothing (q : String)
    (h : (Parse q).IsEmpty = true) :
    ∀ (fmtCutoff : Int → String) (limit : Nat) (st : StoreState),
      search fmtCutoff q limit st = [] := by
  intro fmtCutoff limit st
  simp [search, h]

/-- C10 witness: a whitespace-only query returns nothing even against a
store that holds a message. -/
theorem empty_query_matches_nothing_witness :
    (Parse "  ").IsEmpty = true ∧
    search (fun _ => "") "  " 10 c10St = [] ∧ c10St.messages ≠ [] :=
  ⟨by decide, empty_query_matches_nothing "  " (by decide) (fun _ => "") 10 c10St,
   by decide⟩

/-- C5: an uncompilable pattern makes both `AddWatch` and `UpdateWatch`
return the invalid-regex error, and neither mutates the store at all
(in particular the watchlist rows and the match rows are unchanged). -/
theorem invalid_pattern_rejected (compile : String → Option GoRegex)
    (name pattern color now : String) (id : Nat) (st : StoreState)
    (h : compile pattern = none) :
    addWatch compile name pattern color now st = .error ("invalid regex: " ++ pattern) ∧
    updateWatch compile id name pattern st = .error ("invalid regex: " ++ pattern) ∧
    applyOp compile st (.add name pattern color now) = st ∧
    applyOp compile st (.update id name pattern) = st := by
  have ha : addWatch compile name pattern color now st =
      .error ("invalid regex: " ++ pattern) := by
    unfold addWatch; rw [h]
  have hu : updateWatch compile id name pattern st =
      .error ("invalid regex: " ++ pattern) := by
    unfold updateWatch; rw [h]
  refine ⟨ha, hu, ?_, ?_⟩
  · simp only [applyOp, ha]
  · simp only [applyOp, hu]

/-- C5 witness: a rejected pattern leaves a populated store (with a
subscription and a match row) untouched on both paths. -/
theorem invalid_pattern_rejected_witness :
    noCompile "[invalid" = none ∧
    addWatch noCompile "n" "[invalid" "" "t" c5St = .error ("invalid regex: " ++ "[invalid") ∧
    updateWatch noCompile 1 "n" "[invalid" c5St = .error ("invalid regex: " ++ "[invalid") ∧
    applyOp noCompile c5St (.add "n" "[invalid" "" "t") = c5St ∧
    applyOp noCompile c5St (.update 1 "n" "[invalid") = c5St := by
  have h := invalid_pattern_rejected noCompile "n" "[invalid" "" "t" 1 c5St rfl
  exact ⟨rfl, h.1, h.2.1, h.2.2.1, h.2.2.2⟩

/-- C6: a well-formed age value `N` followed by unit m/h/d/w parses to
the duration `N × unit` (when it is representable in `int64`); the `<`
operator's predicate holds exactly on sessions modified strictly later
than `now − duration`, the `>` operator's exactly on sessions modified
strictly earlier; a malformed value contributes no predicate. -/
theorem age_filter_semantics (now : Int) (value : String) :
    (∀ (numStr : String) (n nanos : Int) (unit : Char),
       goAtoi numStr = some n → nanosPerUnit unit = some nanos →
       value = numStr.push unit →
       -(2 ^ 63) ≤ n * nanos → n * nanos < 2 ^ 63 →
       parseAge value = some (n * nanos)) ∧
    (∀ dur : Int, parseAge value = some dur →
       (∃ p, ageFilterToSQL now .lessThan value = some p ∧
          ∀ t : Int, p t = true ↔ now - dur < t) ∧
       (∃ q, ageFilterToSQL now .greaterThan value = some q ∧
          ∀ t : Int, q t = true ↔ t < now - dur)) ∧
    (parseAge value = none →
       ageFilterToSQL now .lessThan value = none ∧
       ageFilterToSQL now .greaterThan value = none) := by
  refine ⟨?_, ?_, ?_⟩
  · intro numStr n nanos unit hn hu hv hlo hhi
    have hne : numStr.toList ≠ [] := by
      intro hnil
      simp only [goAtoi, hnil] at hn
      simp at hn
    subst hv
    have htl : (numStr.push unit).toList = numStr.toList ++ [unit] := by
      simp [String.push, String.toList]
    have hmk : String.mk numStr.toList = numStr := by
      cases numStr; rfl
    have hwrap : i64wrap (n * nanos) = n * nanos := by
      have hpow : (2 : Int) ^ 64 = 2 * 2 ^ 63 := by ring
      have h1 : (0 : Int) ≤ n * nanos + 2 ^ 63 := by omega
      have h2 : n * nanos + 2 ^ 63 < 2 ^ 64 := by omega
      unfold i64wrap
      show (n * nanos + 2 ^ 63) % 2 ^ 64 - 2 ^ 63 = n * nanos
      rw [Int.emod_eq_of_lt h1 h2]
      ring
    have hlen : ¬((numStr.toList ++ [unit]).length < 2) := by
      rcases hcs : numStr.toList with _ | ⟨c, cs⟩
      · exact absurd hcs hne
      · simp
    simp only [parseAge, htl, List.getLast?_concat, List.dropLast_concat,
      if_neg hlen, hmk, hn, hu, hwrap]
  · intro dur hdur
    unfold ageFilterToSQL
    rw [hdur]
    constructor
    · exact ⟨_, rfl, fun t => by simp⟩
    · exact ⟨_, rfl, fun t => by simp⟩
  · intro hnone
    unfold ageFilterToSQL
    rw [hnone]
    exact ⟨rfl, rfl⟩

/-- C6 witness: `30m` parses to 30 minutes in nanoseconds, `<`/`>`
behave as claimed at concrete instants, and the malformed value `xyz`
contributes no predicate. -/
theorem age_filter_semantics_witness :
    goAtoi "30" = some 30 ∧ nanosPerUnit 'm' = some 60000000000 ∧
    parseAge "30m" = some 1800000000000 ∧
    (∃ p, ageFilterToSQL 0 .lessThan "30m" = some p ∧
       ∀ t : Int, p t = true ↔ 0 - 1800000000000 < t) ∧
    (∃ q, ageFilterToSQL 0 .greaterThan "30m" = some q ∧
       ∀ t : Int, q t = true ↔ t < 0 - 1800000000000) ∧
    parseAge "xyz" = none ∧
    ageFilterToSQL 0 .lessThan "xyz" = none := by
  have h := age_filter_semantics 0 "30m"
  have h30 : parseAge "30m" = some 1800000000000 := by
    have := h.1 "30" 30 60000000000 'm' (by decide) (by decide) (by decide)
      (by decide) (by decide)
    simpa using this
  have hp := h.2.1 1800000000000 h30
  have h2 := age_filter_semantics 0 "xyz"
  have hxyz : parseAge "xyz" = none := by decide
  exact ⟨by decide, by decide, h30, hp.1, hp.2, hxyz, (h2.2.2 hxyz).1⟩

/-- C7: for every integer filter value, the `tokens:>N` and `tokens:<N`
predicates are mutually exclusive, and on a message whose token sum
differs from N exactly one of the two holds. -/
theorem tokens_filter_dichotomy (fmtCutoff : Int → String) (v : String) (n : Int)
    (h : goAtoi v = some n) :
    ∃ gtP ltP,
      filterToSQLRow fmtCutoff ⟨.tokens, .greaterThan, v⟩ = some gtP ∧
      filterToSQLRow fmtCutoff ⟨.tokens, .lessThan, v⟩ = some ltP ∧
      ∀ (m : MsgRec) (srow : SessionRec),
        ¬(gtP m srow = true ∧ ltP m srow = true) ∧
        (m.inputTokens + m.outputTokens ≠ n →
          (gtP m srow = true ↔ ¬ ltP m srow = true)) := by
  refine ⟨fun m _ => decide (n < m.inputTokens + m.outputTokens),
          fun m _ => decide (m.inputTokens + m.outputTokens < n), ?_, ?_, ?_⟩
  · simp [filterToSQLRow, h]
  · simp [filterToSQLRow, h]
  · intro m srow
    constructor
    · rintro ⟨h1, h2⟩
      simp at h1 h2
      omega
    · intro hne
      simp
      omega

/-- C7 witness: the dichotomy at `N = 100` on a message with token sum
90. -/
theorem tokens_filter_dichotomy_witness :
    goAtoi "100" = some 100 ∧
    ∃ gtP ltP,
      filterToSQLRow (fun _ => "") ⟨.tokens, .greaterThan, "100"⟩ = some gtP ∧
      filterToSQLRow (fun _ => "") ⟨.tokens, .lessThan, "100"⟩ = some ltP ∧
      ∀ (m : MsgRec) (srow : SessionRec),
        ¬(gtP m srow = true ∧ ltP m srow = true) ∧
        (m.inputTokens + m.outputTokens ≠ 100 →
          (gtP m srow = true ↔ ¬ ltP m srow = true)) :=
  ⟨by decide, tokens_filter_dichotomy (fun _ => "") "100" 100 (by decide)⟩

/-- `loadMessages` distributes over concatenation of line lists. -/
theorem loadMessages_append (a b : List LogLine) :
    loadMessages (a ++ b) = loadMessages a ++ loadMessages b := by
  induction a with
  | nil => rfl
  | cons l rest ih =>
    cases l with
    | empty => simpa [loadMessages] using ih
    | malformed => simpa [loadMessages] using ih
    | parsed raw =>
      simp only [List.cons_append, loadMessages]
      cases parseMessage raw <;> simp [ih]

/-- C9: a malformed line, a line of unrecognized event type, and a user
event with empty extracted text each contribute no message and do not
disturb the parse of the remaining lines (the content model has no
error channel to surface them on: `scanner.Err` reports I/O errors
only). -/
theorem discardable_lines_skipped (pre post : List LogLine) (l : LogLine)
    (h : l = .malformed ∨
      (∃ raw, l = .parsed raw ∧ raw.type ≠ "user" ∧ raw.type ≠ "assistant" ∧
        raw.type ≠ "tool-result" ∧ raw.type ≠ "system") ∨
      (∃ raw j mc, l = .parsed raw ∧ raw.type = "user" ∧ raw.message = some j ∧
        unmarshalMessageContent j = some mc ∧ extractText mc.content = "")) :
    loadMessages (pre ++ l :: post) = loadMessages (pre ++ post) := by
  have hskip : loadMessages (l :: post) = loadMessages post := by
    rcases h with rfl | ⟨raw, rfl, h1, h2, h3, h4⟩ | ⟨raw, j, mc, rfl, hty, hmsg, hmc, hext⟩
    · rfl
    · have hparse : parseMessage raw = none := by
        simp [parseMessage, h1, h2, h3, h4]
      simp [loadMessages, hparse]
    · have hparse : parseMessage raw = none := by
        simp only [parseMessage, hty]
      -- the dispatch sends a "user" event to parseUserMessage
        simp only [parseUserMessage, hmsg, hmc]
        simp [hext]
      simp [loadMessages, hparse]
  rw [loadMessages_append, loadMessages_append, hskip]

/-- C9 witness: one line of each discardable kind, dropped from between
two well-formed lines. -/
theorem discardable_lines_skipped_witness :
    loadMessages [c9Good, .malformed, c9Good] = loadMessages [c9Good, c9Good] ∧
    loadMessages [c9Good, .parsed c9UnknownRaw, c9Good] = loadMessages [c9Good, c9Good] ∧
    loadMessages [c9Good, .parsed c9EmptyUserRaw, c9Good] = loadMessages [c9Good, c9Good] :=
  ⟨discardable_lines_skipped [c9Good] [c9Good] _ (Or.inl rfl),
   discardable_lines_skipped [c9Good] [c9Good] _
     (Or.inr (Or.inl ⟨c9UnknownRaw, rfl, by decide, by decide, by decide, by decide⟩)),
   discardable_lines_skipped [c9Good] [c9Good] _
     (Or.inr (Or.inr ⟨c9EmptyUserRaw, .obj [("content", .str "")],
       ⟨"", "", some (.str ""), none⟩, rfl, rfl, rfl, rfl, rfl⟩))⟩

/-- The scan loop of `extractToolResultText` returns exactly the
truncation of the first text segment the spec-side scan finds. -/
theorem scanToolResult_eq (bs : List TRBlock) :
    scanToolResult bs =
      (match toolResultFirstTextScan bs with
       | none => ""
       | some s => truncate s 200) := by
  induction bs with
  | nil => rfl
  | cons b rest ih =>
    by_cases hty : b.type = "tool_result"
    · have hbeq : (b.type == "tool_result") = true := by simp [hty]
      simp only [scanToolResult, toolResultFirstTextScan, hbeq, if_true]
      cases hc : b.content with
      | none => exact ih
      | some c =>
        dsimp only
        cases hs : unmarshalString c with
        | none =>
          dsimp only
          cases hbl : unmarshalBlocks c with
          | none => exact ih
          | some inner =>
            dsimp only
            cases hf : inner.find? (fun ib => ib.type == "text") with
            | none => exact ih
            | some ib => rfl
        | some s => rfl
    · have hbeq : (b.type == "tool_result") = false := by simp [hty]
      simp only [scanToolResult, toolResultFirstTextScan, hbeq]
      simpa using ih

/-- C3: a tool-result event stores only the first `text` segment of its
payload (or the scalar payload itself); the stored text is exactly that
text when it has at most 200 code points, and its first 200 code points
followed by the ellipsis suffix otherwise. -/
theorem tool_result_truncation (raw : Option Json) :
    extractToolResultText raw =
      (match toolResultFirstText raw with
       | none => ""
       | some s => if s.length ≤ 200 then s else s.take 200 ++ "...") := by
  cases raw with
  | none => rfl
  | some j =>
    simp only [extractToolResultText, toolResultFirstText]
    cases hb : unmarshalTRBlocks j with
    | none => rfl
    | some blocks =>
      dsimp only
      rw [scanToolResult_eq]
      cases toolResultFirstTextScan blocks with
      | none => rfl
      | some s => rfl

/-! ## Structure of `insertMsgs` and `indexFile`. -/

/-- The rows `insertMsgs` inserts are `mkMsgRows`. -/
theorem insertMsgs_rows (sid : String) (msgs : List Message) :
    ∀ (k : Nat) (agg : SessAgg),
      (insertMsgs sid msgs k agg).rows = mkMsgRows sid k msgs := by
  induction msgs with
  | nil => intro k agg; rfl
  | cons m rest ih =>
    intro k agg
    cases hs : skipTypes m.type with
    | true => simp only [insertMsgs, mkMsgRows, hs, if_true]; exact ih k agg
    | false =>
      simp only [insertMsgs, mkMsgRows, hs, Bool.false_eq_true, if_false]
      rw [ih (k + 1) (updateAgg agg m)]

/-- The aggregate `insertMsgs` computes is the fold of `updateAgg` over
the stored events. -/
theorem insertMsgs_agg (sid : String) (msgs : List Message) :
    ∀ (k : Nat) (agg : SessAgg),
      (insertMsgs sid msgs k agg).agg = (storedEvents msgs).foldl updateAgg agg := by
  induction msgs with
  | nil => intro k agg; rfl
  | cons m rest ih =>
    intro k agg
    cases hs : skipTypes m.type with
    | true =>
      have hst : storedEvents (m :: rest) = storedEvents rest := by
        simp [storedEvents, hs]
      simp only [insertMsgs, hs, if_true, hst]
      exact ih k agg
    | false =>
      have hst : storedEvents (m :: rest) = m :: storedEvents rest := by
        simp [storedEvents, hs]
      simp only [insertMsgs, hs, Bool.false_eq_true, if_false, hst, List.foldl_cons]
      exact ih (k + 1) (updateAgg agg m)

/-- The ids `insertMsgs` returns are the ids of its rows. -/
theorem insertMsgs_ids (sid : String) (msgs : List Message) :
    ∀ (k : Nat) (agg : SessAgg),
      (insertMsgs sid msgs k agg).ids = (mkMsgRows sid k msgs).map (fun r => r.id) := by
  induction msgs with
  | nil => intro k agg; rfl
  | cons m rest ih =>
    intro k agg
    cases hs : skipTypes m.type with
    | true => simp only [insertMsgs, mkMsgRows, hs, if_true]; exact ih k agg
    | false =>
      simp only [insertMsgs, mkMsgRows, hs, Bool.false_eq_true, if_false, List.map_cons]
      rw [ih (k + 1) (updateAgg agg m)]
      rfl

/-- `find?` skips a block in which nothing satisfies the predicate. -/
theorem find?_append_of_none {α : Type} (l1 l2 : List α) (p : α → Bool)
    (h : l1.find? p = none) : (l1 ++ l2).find? p = l2.find? p := by
  induction l1 with
  | nil => rfl
  | cons a rest ih =>
    rw [List.find?_cons] at h
    rcases hp : p a with _ | _
    · rw [hp] at h
      simp only [List.cons_append, List.find?_cons, hp]
      exact ih h
    · rw [hp] at h
      exact absurd h (by simp)

/-- A `false` `any` means `find?` fails. -/
theorem find?_none_of_any_false {α : Type} (l : List α) (p : α → Bool)
    (h : l.any p = false) : l.find? p = none := by
  induction l with
  | nil => rfl
  | cons a rest ih =>
    simp only [List.any_cons, Bool.or_eq_false_iff] at h
    simp only [List.find?_cons, h.1]
    exact ih h.2

/-- The session row a successful `indexFile` leaves for the file's
session id: fully determined by the arguments (file id `st.nextFileId`,
aggregates folded from the stored events). -/
theorem indexFile_session (now mtime size : Int) (path project : String)
    (msgs : List Message) (st st' : StoreState) (ids : List Nat)
    (h : indexFile now mtime size path project msgs st = some (st', ids)) :
    sessionOf st' (sessionIdOfPath path) =
      some ⟨sessionIdOfPath path, st.nextFileId, project,
        (sessAggOf msgs).firstPrompt, (sessAggOf msgs).gitBranch, (sessAggOf msgs).model,
        (sessAggOf msgs).createdAt, (sessAggOf msgs).modifiedAt, (sessAggOf msgs).msgCount,
        (sessAggOf msgs).totalIn, (sessAggOf msgs).totalOut, (sessAggOf msgs).toolCount⟩ := by
  unfold indexFile at h
  cases hfind : st.files.find? (fun f => f.path == path) with
  | none =>
    rw [hfind] at h
    dsimp only at h
    split at h
    · exact absurd h (by simp)
    · split at h
      · exact absurd h (by simp)
      · rename_i hsess
        simp only [Option.some.injEq, Prod.mk.injEq] at h
        obtain ⟨hst, hids⟩ := h
        subst hst
        unfold sessionOf
        dsimp only
        rw [find?_append_of_none _ _ _
          (find?_none_of_any_false _ _ (by simpa using hsess))]
        simp only [List.find?_cons, beq_self_eq_true]
        rw [insertMsgs_agg]
        rfl
  | some old =>
    rw [hfind] at h
    dsimp only at h
    split at h
    · exact absurd h (by simp)
    · split at h
      · exact absurd h (by simp)
      · rename_i hsess
        simp only [Option.some.injEq, Prod.mk.injEq] at h
        obtain ⟨hst, hids⟩ := h
        subst hst
        unfold sessionOf
        dsimp only
        rw [find?_append_of_none _ _ _
          (find?_none_of_any_false _ _ (by simp))]
        simp only [List.find?_cons, beq_self_eq_true]
        rw [insertMsgs_agg]
        rfl

/-! ## The created/modified timestamps of the stored session (C4). -/

/-- How one loop iteration updates `createdAt`. -/
theorem updateAgg_createdAt (agg : SessAgg) (msg : Message) :
    (updateAgg agg msg).createdAt =
      if msg.timestamp != "" then
        (if agg.createdAt == "" then msg.timestamp else agg.createdAt)
      else agg.createdAt := by
  unfold updateAgg
  dsimp only
  repeat' split
  all_goals simp_all

/-- How one loop iteration updates `modifiedAt`. -/
theorem updateAgg_modifiedAt (agg : SessAgg) (msg : Message) :
    (updateAgg agg msg).modifiedAt =
      if msg.timestamp != "" then msg.timestamp else agg.modifiedAt := by
  unfold updateAgg
  dsimp only
  repeat' split
  all_goals simp_all

/-- Over a whole file, `createdAt` ends as the first non-empty
timestamp in file order (or the incoming value when that is already
set). -/
theorem foldl_updateAgg_createdAt (l : List Message) :
    ∀ agg : SessAgg,
      (l.foldl updateAgg agg).createdAt =
        if agg.createdAt == "" then
          ((l.map (fun m => m.timestamp)).filter (fun t => t != "")).headD agg.createdAt
        else agg.createdAt := by
  induction l with
  | nil => intro agg; split <;> rfl
  | cons m rest ih =>
    intro agg
    rw [List.foldl_cons, ih (updateAgg agg m), updateAgg_createdAt]
    by_cases hts : m.timestamp = ""
    · simp [hts]
    · have hbne : (m.timestamp != "") = true := by simp [hts]
      by_cases hcr : agg.createdAt = ""
      · simp [hbne, hcr, hts]
      · simp [hbne, hcr]

/-- Over a whole file, `modifiedAt` ends as the last non-empty
timestamp in file order (or the incoming value when there is none). -/
theorem foldl_updateAgg_modifiedAt (l : List Message) :
    ∀ agg : SessAgg,
      (l.foldl updateAgg agg).modifiedAt =
        ((l.map (fun m => m.timestamp)).filter (fun t => t != "")).getLastD agg.modifiedAt := by
  induction l with
  | nil => intro agg; rfl
  | cons m rest ih =>
    intro agg
    rw [List.foldl_cons, ih (updateAgg agg m), updateAgg_modifiedAt]
    by_cases hts : m.timestamp = ""
    · simp [hts]
    · have hbne : (m.timestamp != "") = true := by simp [hts]
      rw [List.map_cons, List.filter_cons]
      simp only [hbne, if_true, List.getLastD_cons]

/-- In a `≤`-sorted list the head bounds every element from below. -/
theorem headD_le_of_pairwise (l : List String) (h : l.Pairwise (· ≤ ·)) :
    ∀ t ∈ l, l.headD "" ≤ t := by
  cases l with
  | nil => intro t ht; cases ht
  | cons a rest =>
    intro t ht
    rcases List.mem_cons.mp ht with rfl | hmem
    · exact le_refl t
    · exact (List.pairwise_cons.mp h).1 t hmem

/-- The last element of a non-empty list is a member. -/
theorem getLastD_mem (l : List String) :
    ∀ d : String, l ≠ [] → l.getLastD d ∈ l := by
  induction l with
  | nil => intro d hne; exact absurd rfl hne
  | cons a rest ih =>
    intro d _
    rw [List.getLastD_cons]
    cases rest with
    | nil => simp
    | cons b rest2 =>
      exact List.mem_cons_of_mem a (ih a (by simp))

/-- In a `≤`-sorted list the last element bounds every element from
above. -/
theorem le_getLastD_of_pairwise (l : List String) :
    ∀ d : String, l.Pairwise (· ≤ ·) → ∀ t ∈ l, t ≤ l.getLastD d := by
  induction l with
  | nil => intro d hp t ht; cases ht
  | cons a rest ih =>
    intro d hp t ht
    rw [List.getLastD_cons]
    obtain ⟨hall, hrest⟩ := List.pairwise_cons.mp hp
    rcases List.mem_cons.mp ht with rfl | hmem
    · cases rest with
      | nil => simp
      | cons b rest2 =>
        exact hall _ (getLastD_mem (b :: rest2) t (by simp))
    · exact ih a hrest t hmem

/-- C4 counterexample: a file whose two stored events carry decreasing
timestamps is stored with created = "2025-01-02..." and modified =
"2025-01-01..." — created is not the minimum of the stored events'
timestamps and modified is not their maximum. -/
theorem session_timestamps_not_min_max :
    c4Result.map (fun r => (sessionOf r.1 "s").map
        (fun srow => (srow.createdAt, srow.modifiedAt)))
      = some (some ("2025-01-02T00:00:00Z", "2025-01-01T00:00:00Z")) ∧
    c4Result.map (fun r => (messagesOf r.1 "s").map (fun m => m.timestamp))
      = some ["2025-01-02T00:00:00Z", "2025-01-01T00:00:00Z"] ∧
    ("2025-01-01T00:00:00Z" : String) < "2025-01-02T00:00:00Z" := by
  refine ⟨by decide, by decide, ?_⟩
  rw [String.lt_iff_toList_lt]
  decide

/-- C4 amended: the stored session's created timestamp is the first
non-empty timestamp of the file's stored events in file order and its
modified timestamp the last; when those timestamps are in
non-decreasing file order (the append-only steady state) they are the
minimum and the maximum. -/
theorem session_timestamps_first_last (now mtime size : Int) (path project : String)
    (msgs : List Message) (st st' : StoreState) (ids : List Nat)
    (h : indexFile now mtime size path project msgs st = some (st', ids)) :
    ∃ srow, sessionOf st' (sessionIdOfPath path) = some srow ∧
      srow.createdAt = (tsListOf msgs).headD "" ∧
      srow.modifiedAt = (tsListOf msgs).getLastD "" ∧
      ((tsListOf msgs).Pairwise (· ≤ ·) →
        ∀ t ∈ tsListOf msgs, srow.createdAt ≤ t ∧ t ≤ srow.modifiedAt) := by
  have hcr : (sessAggOf msgs).createdAt = (tsListOf msgs).headD "" := by
    unfold sessAggOf
    rw [foldl_updateAgg_createdAt]
    rfl
  have hmo : (sessAggOf msgs).modifiedAt = (tsListOf msgs).getLastD "" := by
    unfold sessAggOf
    rw [foldl_updateAgg_modifiedAt]
    rfl
  refine ⟨_, indexFile_session now mtime size path project msgs st st' ids h,
    hcr, hmo, ?_⟩
  intro hsorted t ht
  rw [hcr, hmo]
  exact ⟨headD_le_of_pairwise _ hsorted t ht,
    le_getLastD_of_pairwise _ "" hsorted t ht⟩

/-- C4 amended witness: indexing two events in increasing timestamp
order yields created = first = minimum and modified = last = maximum. -/
theorem session_timestamps_first_last_witness :
    indexFile 0 0 0 "/a/s.jsonl" "p" c4wMsgs initialState = some (c4wSt, [1, 2]) ∧
    (∃ srow, sessionOf c4wSt (sessionIdOfPath "/a/s.jsonl") = some srow ∧
      srow.createdAt = (tsListOf c4wMsgs).headD "" ∧
      srow.modifiedAt = (tsListOf c4wMsgs).getLastD "" ∧
      ((tsListOf c4wMsgs).Pairwise (· ≤ ·) →
        ∀ t ∈ tsListOf c4wMsgs, srow.createdAt ≤ t ∧ t ≤ srow.modifiedAt)) :=
  ⟨by decide,
   session_timestamps_first_last 0 0 0 "/a/s.jsonl" "p" c4wMsgs initialState
     c4wSt [1, 2] (by decide)⟩

/-! ## File-level replace semantics (C1). -/

/-- Every row of a generation carries the generation's session id. -/
theorem mkMsgRows_sessionId (sid : String) (msgs : List Message) :
    ∀ k, ∀ r ∈ mkMsgRows sid k msgs, r.sessionId = sid := by
  induction msgs with
  | nil => intro k r hr; cases hr
  | cons m rest ih =>
    intro k r hr
    cases hs : skipTypes m.type with
    | true =>
      rw [mkMsgRows, hs] at hr
      exact ih k r (by simpa using hr)
    | false =>
      rw [mkMsgRows, hs] at hr
      simp only [Bool.false_eq_true, if_false] at hr
      rcases List.mem_cons.mp hr with rfl | hmem
      · rfl
      · exact ih (k + 1) r hmem

/-- One generation holds exactly one row per stored event. -/
theorem mkMsgRows_length (sid : String) (msgs : List Message) :
    ∀ k, (mkMsgRows sid k msgs).length = (storedEvents msgs).length := by
  induction msgs with
  | nil => intro k; rfl
  | cons m rest ih =>
    intro k
    cases hs : skipTypes m.type with
    | true =>
      have hst : storedEvents (m :: rest) = storedEvents rest := by
        simp [storedEvents, hs]
      rw [mkMsgRows, hs, hst]
      simpa using ih k
    | false =>
      have hst : storedEvents (m :: rest) = m :: storedEvents rest := by
        simp [storedEvents, hs]
      rw [mkMsgRows, hs, hst]
      simpa using ih (k + 1)

/-- Filtering a generation by its own session id keeps everything. -/
theorem mkMsgRows_filter_self (sid : String) (msgs : List Message) (k : Nat) :
    (mkMsgRows sid k msgs).filter (fun m => m.sessionId == sid) = mkMsgRows sid k msgs := by
  apply List.filter_eq_self.mpr
  intro r hr
  simp [mkMsgRows_sessionId sid msgs k r hr]

/-- Double filtering by a predicate and its negation leaves nothing. -/
theorem filter_not_filter_self {α : Type} (l : List α) (p : α → Bool) :
    (l.filter (fun a => !(p a))).filter p = [] := by
  induction l with
  | nil => rfl
  | cons a rest ih =>
    cases hp : p a with
    | true => simp [List.filter_cons, hp, ih]
    | false => simp [List.filter_cons, hp, ih]

/-- Under the pipeline invariant, a session id without a session row
has no message rows. -/
theorem no_sid_messages (st : StoreState) (sid : String) (hwf : StoreWF st)
    (hs : st.sessions.any (fun srow => srow.sessionId == sid) = false) :
    st.messages.filter (fun m => m.sessionId == sid) = [] := by
  rw [List.filter_eq_nil_iff]
  intro m hm
  intro hbeq
  obtain ⟨srow, hsm, hseq⟩ := hwf m hm
  have : srow.sessionId == sid := by
    rw [hseq]
    exact hbeq
  have h2 := List.any_eq_false.mp hs srow hsm
  exact h2 this

/-- A successful `indexFile` leaves under the file's session id exactly
the rows of the new generation (ids from `st.nextMsgId`), for every
prior store satisfying the pipeline invariant. -/
theorem indexFile_messages (now mtime size : Int) (path project : String)
    (msgs : List Message) (st st' : StoreState) (ids : List Nat)
    (hwf : StoreWF st)
    (h : indexFile now mtime size path project msgs st = some (st', ids)) :
    messagesOf st' (sessionIdOfPath path) =
      mkMsgRows (sessionIdOfPath path) st.nextMsgId msgs := by
  unfold indexFile at h
  cases hfind : st.files.find? (fun f => f.path == path) with
  | none =>
    rw [hfind] at h
    dsimp only at h
    split at h
    · exact absurd h (by simp)
    · split at h
      · exact absurd h (by simp)
      · rename_i hsess
        simp only [Option.some.injEq, Prod.mk.injEq] at h
        obtain ⟨hst, hids⟩ := h
        subst hst
        unfold messagesOf
        dsimp only
        rw [List.filter_append, insertMsgs_rows, mkMsgRows_filter_self,
          no_sid_messages st _ hwf (by simpa using hsess)]
        rfl
  | some old =>
    rw [hfind] at h
    dsimp only at h
    split at h
    · exact absurd h (by simp)
    · split at h
      · exact absurd h (by simp)
      · simp only [Option.some.injEq, Prod.mk.injEq] at h
        obtain ⟨hst, hids⟩ := h
        subst hst
        unfold messagesOf
        dsimp only
        rw [List.filter_append, insertMsgs_rows, mkMsgRows_filter_self,
          filter_not_filter_self]
        rfl

/-- A successful `indexFile` preserves the pipeline invariant. -/
theorem indexFile_wf (now mtime size : Int) (path project : String)
    (msgs : List Message) (st st' : StoreState) (ids : List Nat)
    (hwf : StoreWF st)
    (h : indexFile now mtime size path project msgs st = some (st', ids)) :
    StoreWF st' := by
  unfold indexFile at h
  cases hfind : st.files.find? (fun f => f.path == path) with
  | none =>
    rw [hfind] at h
    dsimp only at h
    split at h
    · exact absurd h (by simp)
    · split at h
      · exact absurd h (by simp)
      · simp only [Option.some.injEq, Prod.mk.injEq] at h
        obtain ⟨hst, hids⟩ := h
        subst hst
        intro m hm
        dsimp only at hm ⊢
        rcases List.mem_append.mp hm with hold | hnew
        · obtain ⟨srow, hsm, hseq⟩ := hwf m hold
          exact ⟨srow, List.mem_append_left _ hsm, hseq⟩
        · rw [insertMsgs_rows] at hnew
          refine ⟨_, List.mem_append_right _ (List.mem_singleton_self _), ?_⟩
          exact (mkMsgRows_sessionId _ msgs _ m hnew).symm
  | some old =>
    rw [hfind] at h
    dsimp only at h
    split at h
    · exact absurd h (by simp)
    · split at h
      · exact absurd h (by simp)
      · simp only [Option.some.injEq, Prod.mk.injEq] at h
        obtain ⟨hst, hids⟩ := h
        subst hst
        intro m hm
        dsimp only at hm ⊢
        rcases List.mem_append.mp hm with hold | hnew
        · obtain ⟨hmem, hne⟩ := List.mem_filter.mp hold
          obtain ⟨srow, hsm, hseq⟩ := hwf m hmem
          refine ⟨srow, List.mem_append_left _ (List.mem_filter.mpr ⟨hsm, ?_⟩), hseq⟩
          rw [hseq]
          exact hne
        · rw [insertMsgs_rows] at hnew
          refine ⟨_, List.mem_append_right _ (List.mem_singleton_self _), ?_⟩
          exact (mkMsgRows_sessionId _ msgs _ m hnew).symm

/-- A successful `indexFile` leaves exactly one file row for the path,
findable and unique by id. -/
theorem indexFile_files (now mtime size : Int) (path project : String)
    (msgs : List Message) (st st' : StoreState) (ids : List Nat)
    (h : indexFile now mtime size path project msgs st = some (st', ids)) :
    st'.files.find? (fun f => f.path == path) =
      some ⟨st.nextFileId, path, project, sessionIdOfPath path, mtime, size, now⟩ ∧
    ∀ f ∈ st'.files, f.path = path → f.id = st.nextFileId := by
  unfold indexFile at h
  cases hfind : st.files.find? (fun f => f.path == path) with
  | none =>
    rw [hfind] at h
    dsimp only at h
    split at h
    · exact absurd h (by simp)
    · split at h
      · exact absurd h (by simp)
      · rename_i hfiles _
        simp only [Option.some.injEq, Prod.mk.injEq] at h
        obtain ⟨hst, hids⟩ := h
        subst hst
        constructor
        · dsimp only
          rw [find?_append_of_none _ _ _
            (find?_none_of_any_false _ _ (by rwa [Bool.not_eq_true] at hfiles))]
          simp [List.find?_cons]
        · intro f hf hfp
          dsimp only at hf
          rcases List.mem_append.mp hf with hmem | hmem
          · exfalso
            apply hfiles
            rw [List.any_eq_true]
            exact ⟨f, hmem, by simp [hfp]⟩
          · rw [List.mem_singleton.mp hmem]
  | some old =>
    rw [hfind] at h
    dsimp only at h
    split at h
    · exact absurd h (by simp)
    · split at h
      · exact absurd h (by simp)
      · rename_i hfiles _
        simp only [Option.some.injEq, Prod.mk.injEq] at h
        obtain ⟨hst, hids⟩ := h
        subst hst
        constructor
        · dsimp only
          rw [find?_append_of_none _ _ _
            (find?_none_of_any_false _ _ (by rwa [Bool.not_eq_true] at hfiles))]
          simp [List.find?_cons]
        · intro f hf hfp
          dsimp only at hf
          rcases List.mem_append.mp hf with hmem | hmem
          · exfalso
            apply hfiles
            rw [List.any_eq_true]
            exact ⟨f, hmem, by simp [hfp]⟩
          · rw [List.mem_singleton.mp hmem]

/-- Re-indexing a path that has a unique file row always succeeds: the
delete step clears exactly the rows that could collide. -/
theorem indexFile_succeeds_of_found (now mtime size : Int) (path project : String)
    (msgs : List Message) (st : StoreState) (frec : FileRec)
    (hfind : st.files.find? (fun f => f.path == path) = some frec)
    (hids : ∀ f ∈ st.files, f.path = path → f.id = frec.id) :
    ∃ r, indexFile now mtime size path project msgs st = some r := by
  unfold indexFile
  rw [hfind]
  dsimp only
  have hA : ((st.files.filter (fun f => !(f.id == frec.id))).any
      (fun f => f.path == path)) = false := by
    rw [List.any_eq_false]
    intro f hf
    obtain ⟨hmem, hne⟩ := List.mem_filter.mp hf
    intro hbeq
    have hfp : f.path = path := by simpa using hbeq
    have := hids f hmem hfp
    simp [this] at hne
  have hS : ((st.sessions.filter
      (fun srow => !(srow.sessionId == sessionIdOfPath path))).any
      (fun srow => srow.sessionId == sessionIdOfPath path)) = false := by
    rw [List.any_eq_false]
    intro srow hsrow
    obtain ⟨_, hne⟩ := List.mem_filter.mp hsrow
    intro hbeq
    simp [hbeq] at hne
  rw [hA, hS]
  exact ⟨_, rfl⟩

/-- C1: for every prior store satisfying the pipeline invariant, a
successful `indexFile` leaves exactly the new generation under the
path's session id; re-indexing the unchanged file succeeds and keeps
the message count and the session token totals identical; re-indexing
changed content succeeds and leaves a message count equal to the new
file's stored-event count. -/
theorem index_file_replaces (now mtime size : Int) (path project : String)
    (msgs : List Message) (st st' : StoreState) (ids : List Nat)
    (hwf : StoreWF st)
    (h : indexFile now mtime size path project msgs st = some (st', ids)) :
    messagesOf st' (sessionIdOfPath path) =
      mkMsgRows (sessionIdOfPath path) st.nextMsgId msgs ∧
    (messagesOf st' (sessionIdOfPath path)).length = (storedEvents msgs).length ∧
    (∀ now2 mtime2 size2 : Int,
      ∃ st2 ids2, indexFile now2 mtime2 size2 path project msgs st' = some (st2, ids2) ∧
        (messagesOf st2 (sessionIdOfPath path)).length
          = (messagesOf st' (sessionIdOfPath path)).length ∧
        (sessionOf st2 (sessionIdOfPath path)).map
            (fun srow => (srow.messageCount, srow.totalInputTokens, srow.totalOutputTokens))
          = (sessionOf st' (sessionIdOfPath path)).map
            (fun srow => (srow.messageCount, srow.totalInputTokens, srow.totalOutputTokens))) ∧
    (∀ (msgs2 : List Message) (now3 mtime3 size3 : Int),
      ∃ st3 ids3, indexFile now3 mtime3 size3 path project msgs2 st' = some (st3, ids3) ∧
        (messagesOf st3 (sessionIdOfPath path)).length = (storedEvents msgs2).length) := by
  have hwf' := indexFile_wf now mtime size path project msgs st st' ids hwf h
  have hmsg := indexFile_messages now mtime size path project msgs st st' ids hwf h
  have hfiles := indexFile_files now mtime size path project msgs st st' ids h
  refine ⟨hmsg, by rw [hmsg]; exact mkMsgRows_length _ _ _, ?_, ?_⟩
  · intro now2 mtime2 size2
    obtain ⟨⟨st2, ids2⟩, h2⟩ := indexFile_succeeds_of_found now2 mtime2 size2 path
      project msgs st' _ hfiles.1 (by intro f hf hfp; exact hfiles.2 f hf hfp)
    refine ⟨st2, ids2, h2, ?_, ?_⟩
    · rw [indexFile_messages now2 mtime2 size2 path project msgs st' st2 ids2 hwf' h2,
        hmsg, mkMsgRows_length, mkMsgRows_length]
    · rw [indexFile_session now2 mtime2 size2 path project msgs st' st2 ids2 h2,
        indexFile_session now mtime size path project msgs st st' ids h]
      rfl
  · intro msgs2 now3 mtime3 size3
    obtain ⟨⟨st3, ids3⟩, h3⟩ := indexFile_succeeds_of_found now3 mtime3 size3 path
      project msgs2 st' _ hfiles.1 (by intro f hf hfp; exact hfiles.2 f hf hfp)
    refine ⟨st3, ids3, h3, ?_⟩
    rw [indexFile_messages now3 mtime3 size3 path project msgs2 st' st3 ids3 hwf' h3,
      mkMsgRows_length]

/-- C1 witness: indexing a concrete three-event file (one event
skipped) into the empty store, with the replace, idempotence and
changed-content consequences instantiated. -/
theorem index_file_replaces_witness :
    StoreWF initialState ∧
    indexFile 0 0 0 "/a/s.jsonl" "p" c1Msgs initialState = some (c1St, [1, 2]) ∧
    messagesOf c1St (sessionIdOfPath "/a/s.jsonl") =
      mkMsgRows (sessionIdOfPath "/a/s.jsonl") initialState.nextMsgId c1Msgs ∧
    (messagesOf c1St (sessionIdOfPath "/a/s.jsonl")).length = (storedEvents c1Msgs).length ∧
    (∃ st2 ids2, indexFile 1 1 1 "/a/s.jsonl" "p" c1Msgs c1St = some (st2, ids2) ∧
      (messagesOf st2 (sessionIdOfPath "/a/s.jsonl")).length
        = (messagesOf c1St (sessionIdOfPath "/a/s.jsonl")).length ∧
      (sessionOf st2 (sessionIdOfPath "/a/s.jsonl")).map
          (fun srow => (srow.messageCount, srow.totalInputTokens, srow.totalOutputTokens))
        = (sessionOf c1St (sessionIdOfPath "/a/s.jsonl")).map
          (fun srow => (srow.messageCount, srow.totalInputTokens, srow.totalOutputTokens))) ∧
    (∃ st3 ids3, indexFile 2 2 2 "/a/s.jsonl" "p" c4wMsgs c1St = some (st3, ids3) ∧
      (messagesOf st3 (sessionIdOfPath "/a/s.jsonl")).length = (storedEvents c4wMsgs).length) := by
  have h := index_file_replaces 0 0 0 "/a/s.jsonl" "p" c1Msgs initialState c1St [1, 2]
    (by decide) (by decide)
  exact ⟨by decide, by decide, h.1, h.2.1, h.2.2.1 1 1 1, h.2.2.2 c4wMsgs 2 2 2⟩

/-! ## Watch-match uniqueness machinery (C2). -/

/-- Row ids of one generation lie in `[k, k + count)`. -/
theorem mkMsgRows_id_bounds (sid : String) (msgs : List Message) :
    ∀ k, ∀ r ∈ mkMsgRows sid k msgs, k ≤ r.id ∧ r.id < k + (storedEvents msgs).length := by
  induction msgs with
  | nil => intro k r hr; cases hr
  | cons m rest ih =>
    intro k r hr
    cases hs : skipTypes m.type with
    | true =>
      rw [mkMsgRows, hs] at hr
      have hst : storedEvents (m :: rest) = storedEvents rest := by
        simp [storedEvents, hs]
      rw [hst]
      exact ih k r (by simpa using hr)
    | false =>
      rw [mkMsgRows, hs] at hr
      simp only [Bool.false_eq_true, if_false] at hr
      have hst : storedEvents (m :: rest) = m :: storedEvents rest := by
        simp [storedEvents, hs]
      rw [hst]
      rcases List.mem_cons.mp hr with rfl | hmem
      · refine ⟨le_refl _, ?_⟩
        simp only [mkMsgRec, List.length_cons]
        omega
      · have := ih (k + 1) r hmem
        simp only [List.length_cons]
        omega

/-- Row ids of one generation are pairwise distinct. -/
theorem mkMsgRows_id_pairwise (sid : String) (msgs : List Message) :
    ∀ k, (mkMsgRows sid k msgs).Pairwise (fun a b => a.id ≠ b.id) := by
  induction msgs with
  | nil => intro k; exact List.Pairwise.nil
  | cons m rest ih =>
    intro k
    cases hs : skipTypes m.type with
    | true => rw [mkMsgRows, hs]; simpa using ih k
    | false =>
      rw [mkMsgRows, hs]
      simp only [Bool.false_eq_true, if_false]
      refine List.Pairwise.cons ?_ (ih (k + 1))
      intro r hr
      have hk : (mkMsgRec sid k m).id = k := rfl
      have := (mkMsgRows_id_bounds sid rest (k + 1) r hr).1
      omega

/-- `insertMsgs` advances the rowid counter by the stored-event count. -/
theorem insertMsgs_nextId (sid : String) (msgs : List Message) :
    ∀ (k : Nat) (agg : SessAgg),
      (insertMsgs sid msgs k agg).nextId = k + (storedEvents msgs).length := by
  induction msgs with
  | nil => intro k agg; rfl
  | cons m rest ih =>
    intro k agg
    cases hs : skipTypes m.type with
    | true =>
      have hst : storedEvents (m :: rest) = storedEvents rest := by
        simp [storedEvents, hs]
      rw [insertMsgs, hs, hst]
      simpa using ih k agg
    | false =>
      have hst : storedEvents (m :: rest) = m :: storedEvents rest := by
        simp [storedEvents, hs]
      rw [insertMsgs, hs, hst]
      simp only [Bool.false_eq_true, if_false, List.length_cons]
      rw [ih (k + 1) (updateAgg agg m)]
      omega

/-- The ids `insertMsgs` returns are at least `k`. -/
theorem insertMsgs_ids_ge (sid : String) (msgs : List Message) (k : Nat) (agg : SessAgg) :
    ∀ i ∈ (insertMsgs sid msgs k agg).ids, k ≤ i := by
  intro i hi
  rw [insertMsgs_ids] at hi
  obtain ⟨r, hr, rfl⟩ := List.mem_map.mp hi
  exact (mkMsgRows_id_bounds sid msgs k r hr).1

/-- Every produced match row carries the watch id and references one of
the scanned messages. -/
theorem matchRowsFor_mem (watchId : Nat) (re : GoRegex) (rows : List MsgRec) :
    ∀ k, ∀ x ∈ matchRowsFor watchId re rows k,
      x.watchlistId = watchId ∧ ∃ m ∈ rows, m.id = x.messageId := by
  induction rows with
  | nil => intro k x hx; cases hx
  | cons m rest ih =>
    intro k x hx
    cases hf : re.find m.text with
    | none =>
      simp only [matchRowsFor, hf] at hx
      obtain ⟨h1, m', hm', h2⟩ := ih k x hx
      exact ⟨h1, m', List.mem_cons_of_mem _ hm', h2⟩
    | some loc =>
      obtain ⟨lo, hi⟩ := loc
      simp only [matchRowsFor, hf] at hx
      rcases List.mem_cons.mp hx with rfl | hmem
      · exact ⟨rfl, m, List.mem_cons_self _ _, rfl⟩
      · obtain ⟨h1, m', hm', h2⟩ := ih (k + 1) x hmem
        exact ⟨h1, m', List.mem_cons_of_mem _ hm', h2⟩

/-- The referenced message ids form a sublist of the scanned rows'
ids. -/
theorem matchRowsFor_msgIds_sublist (watchId : Nat) (re : GoRegex) (rows : List MsgRec) :
    ∀ k, ((matchRowsFor watchId re rows k).map (fun x => x.messageId)).Sublist
      (rows.map (fun m => m.id)) := by
  induction rows with
  | nil => intro k; simp [matchRowsFor]
  | cons m rest ih =>
    intro k
    cases hf : re.find m.text with
    | none =>
      simp only [matchRowsFor, hf, List.map_cons]
      exact (ih k).cons _
    | some loc =>
      obtain ⟨lo, hi⟩ := loc
      simp only [matchRowsFor, hf, List.map_cons]
      exact (ih (k + 1)).cons₂ _

/-- Appending one scan pass keeps match pairs unique, provided no
existing row of the same watch references a scanned message. -/
theorem matchPairs_append (old : List MatchRec) (watchId : Nat) (re : GoRegex)
    (rows : List MsgRec) (k : Nat)
    (hold : MatchPairsUnique old)
    (hrows : rows.Pairwise (fun a b => a.id ≠ b.id))
    (hcross : ∀ wm ∈ old, wm.watchlistId = watchId → ∀ m ∈ rows, wm.messageId ≠ m.id) :
    MatchPairsUnique (old ++ matchRowsFor watchId re rows k) := by
  rw [MatchPairsUnique, List.pairwise_append]
  refine ⟨hold, ?_, ?_⟩
  · have hmap : (rows.map (fun m => m.id)).Pairwise (· ≠ ·) :=
      (List.pairwise_map).mpr hrows
    have hnew : ((matchRowsFor watchId re rows k).map (fun x => x.messageId)).Pairwise (· ≠ ·) :=
      hmap.sublist (matchRowsFor_msgIds_sublist watchId re rows k)
    exact ((List.pairwise_map).mp hnew).imp (fun h => Or.inr h)
  · intro a ha b hb
    obtain ⟨hbw, m, hm, hid⟩ := matchRowsFor_mem watchId re rows k b hb
    by_cases hw : a.watchlistId = watchId
    · right
      rw [← hid]
      exact hcross a ha hw m hm
    · left
      rw [hbw]
      exact hw

/-- Backfilling one live subscription that has no match rows yet
preserves the store invariant. -/
theorem matchAllForWatch_inv (compile : String → Option GoRegex) (item : WatchRec)
    (st : StoreState)
    (hinv : StoreInv st)
    (hmem : item ∈ st.watchlist)
    (hfresh : ∀ wm ∈ st.watchMatches, wm.watchlistId ≠ item.id) :
    StoreInv (matchAllForWatch compile item st) := by
  obtain ⟨hpairs, hstale, hmsgpair, hmsgbound, hwpair, hwbound, hmw⟩ := hinv
  unfold matchAllForWatch
  cases compile item.pattern with
  | none => exact ⟨hpairs, hstale, hmsgpair, hmsgbound, hwpair, hwbound, hmw⟩
  | some re =>
    dsimp only
    refine ⟨?_, ?_, hmsgpair, hmsgbound, hwpair, hwbound, ?_⟩
    · exact matchPairs_append _ _ re _ _ hpairs hmsgpair
        (fun wm hwm hw m hm => absurd hw (hfresh wm hwm))
    · intro wm hwm
      rcases List.mem_append.mp hwm with hl | hr
      · exact hstale wm hl
      · obtain ⟨_, m, hm, hid⟩ := matchRowsFor_mem _ re _ _ wm hr
        exact ⟨m, hm, hid⟩
    · intro wm hwm
      rcases List.mem_append.mp hwm with hl | hr
      · exact hmw wm hl
      · obtain ⟨hw, _⟩ := matchRowsFor_mem _ re _ _ wm hr
        exact ⟨item, hmem, hw.symm⟩

/-- A successful `AddWatch` preserves the store invariant. -/
theorem addWatch_inv (compile : String → Option GoRegex)
    (name pattern color now : String) (st st2 : StoreState) (item : WatchRec)
    (hinv : StoreInv st)
    (hok : addWatch compile name pattern color now st = .ok (item, st2)) :
    StoreInv st2 := by
  unfold addWatch at hok
  cases hcp : compile pattern with
  | none => rw [hcp] at hok; exact absurd hok (by simp)
  | some re =>
    rw [hcp] at hok
    dsimp only at hok
    simp only [Except.ok.injEq, Prod.mk.injEq] at hok
    obtain ⟨hitem, hst2⟩ := hok
    subst hst2
    obtain ⟨hpairs, hstale, hmsgpair, hmsgbound, hwpair, hwbound, hmw⟩ := hinv
    apply matchAllForWatch_inv
    · refine ⟨hpairs, hstale, hmsgpair, hmsgbound, ?_, ?_, ?_⟩
      · rw [List.pairwise_append]
        refine ⟨hwpair, List.pairwise_singleton _ _, ?_⟩
        intro a ha b hb
        rw [List.mem_singleton.mp hb]
        have := hwbound a ha
        show a.id ≠ st.nextWatchId
        omega
      · intro w hw
        rcases List.mem_append.mp hw with hl | hr
        · have := hwbound w hl
          show w.id < st.nextWatchId + 1
          omega
        · rw [List.mem_singleton.mp hr]
          show st.nextWatchId < st.nextWatchId + 1
          omega
      · intro wm hwm
        obtain ⟨w, hwmem, hid⟩ := hmw wm hwm
        exact ⟨w, List.mem_append_left _ hwmem, hid⟩
    · exact List.mem_append_right _ (List.mem_singleton_self _)
    · intro wm hwm
      obtain ⟨w, hwmem, hid⟩ := hmw wm hwm
      have := hwbound w hwmem
      show wm.watchlistId ≠ (⟨st.nextWatchId, name, pattern, true,
        if color == "" then "#b56a6a" else color, now⟩ : WatchRec).id
      dsimp only
      omega

/-- The row update of `UpdateWatch` keeps the id. -/
theorem updRow_id (id : Nat) (name pattern : String) (w : WatchRec) :
    (if w.id == id then { w with name := name, pattern := pattern } else w).id = w.id := by
  split <;> rfl

/-- The row update of `ToggleWatch` keeps the id. -/
theorem toggleRow_id (id : Nat) (w : WatchRec) :
    (if w.id == id then { w with enabled := !w.enabled } else w).id = w.id := by
  split <;> rfl

/-- `RemoveWatch` preserves the store invariant. -/
theorem removeWatch_inv (id : Nat) (st : StoreState) (hinv : StoreInv st) :
    StoreInv (removeWatch id st) := by
  obtain ⟨hpairs, hstale, hmsgpair, hmsgbound, hwpair, hwbound, hmw⟩ := hinv
  unfold removeWatch
  refine ⟨hpairs.sublist (List.filter_sublist _), ?_, hmsgpair, hmsgbound,
    hwpair.sublist (List.filter_sublist _), ?_, ?_⟩
  · intro wm hwm
    exact hstale wm (List.mem_of_mem_filter hwm)
  · intro w hw
    exact hwbound w (List.mem_of_mem_filter hw)
  · intro wm hwm
    have hne := (List.mem_filter.mp hwm).2
    obtain ⟨w, hwmem, hid⟩ := hmw wm (List.mem_of_mem_filter hwm)
    refine ⟨w, List.mem_filter.mpr ⟨hwmem, ?_⟩, hid⟩
    simp only [Bool.not_eq_eq_eq_not, Bool.not_true, beq_eq_false_iff_ne] at hne ⊢
    rw [hid]
    exact hne

/-- `ToggleWatch` preserves the store invariant. -/
theorem toggleWatch_inv (id : Nat) (st : StoreState) (hinv : StoreInv st) :
    StoreInv (toggleWatch id st) := by
  obtain ⟨hpairs, hstale, hmsgpair, hmsgbound, hwpair, hwbound, hmw⟩ := hinv
  unfold toggleWatch
  refine ⟨hpairs, hstale, hmsgpair, hmsgbound, ?_, ?_, ?_⟩
  · rw [List.pairwise_map]
    exact hwpair.imp (fun h => by rw [toggleRow_id, toggleRow_id]; exact h)
  · intro w hw
    obtain ⟨w0, hw0, rfl⟩ := List.mem_map.mp hw
    rw [toggleRow_id]
    exact hwbound w0 hw0
  · intro wm hwm
    obtain ⟨w, hwmem, hid⟩ := hmw wm hwm
    refine ⟨_, List.mem_map_of_mem _ hwmem, ?_⟩
    rw [toggleRow_id]
    exact hid

/-- A successful `UpdateWatch` (row updated, its matches deleted, then
re-backfilled when enabled) preserves the store invariant. -/
theorem updateWatch_inv (compile : String → Option GoRegex) (id : Nat)
    (name pattern : String) (st st2 : StoreState)
    (hinv : StoreInv st)
    (hok : updateWatch compile id name pattern st = .ok st2) :
    StoreInv st2 := by
  unfold updateWatch at hok
  cases hcp : compile pattern with
  | none => rw [hcp] at hok; exact absurd hok (by simp)
  | some re =>
    rw [hcp] at hok
    dsimp only at hok
    obtain ⟨hpairs, hstale, hmsgpair, hmsgbound, hwpair, hwbound, hmw⟩ := hinv
    have hinvMid : StoreInv { st with
        watchlist := st.watchlist.map (fun w =>
          if w.id == id then { w with name := name, pattern := pattern } else w),
        watchMatches := st.watchMatches.filter (fun wm => !(wm.watchlistId == id)) } := by
      refine ⟨hpairs.sublist (List.filter_sublist _), ?_, hmsgpair, hmsgbound, ?_, ?_, ?_⟩
      · intro wm hwm
        exact hstale wm (List.mem_of_mem_filter hwm)
      · rw [List.pairwise_map]
        exact hwpair.imp (fun h => by rw [updRow_id, updRow_id]; exact h)
      · intro w hw
        obtain ⟨w0, hw0, rfl⟩ := List.mem_map.mp hw
        rw [updRow_id]
        exact hwbound w0 hw0
      · intro wm hwm
        obtain ⟨w, hwmem, hid⟩ := hmw wm (List.mem_of_mem_filter hwm)
        refine ⟨_, List.mem_map_of_mem _ hwmem, ?_⟩
        rw [updRow_id]
        exact hid
    cases hfind : (st.watchlist.map (fun w =>
        if w.id == id then { w with name := name, pattern := pattern } else w)).find?
        (fun w => w.id == id) with
    | none =>
      simp only [hfind] at hok
      simp only [Except.ok.injEq] at hok
      subst hok
      exact hinvMid
    | some item =>
      simp only [hfind] at hok
      have hitemid : item.id = id := by
        have := List.find?_some hfind
        simpa using this
      have hitemmem : item ∈ _ := List.mem_of_find?_eq_some hfind
      by_cases hen : item.enabled
      · rw [if_pos hen] at hok
        simp only [Except.ok.injEq] at hok
        subst hok
        apply matchAllForWatch_inv _ _ _ hinvMid hitemmem
        intro wm hwm
        have hne := (List.mem_filter.mp hwm).2
        simp only [Bool.not_eq_eq_eq_not, Bool.not_true, beq_eq_false_iff_ne] at hne
        rw [hitemid]
        exact hne
      · rw [if_neg hen] at hok
        simp only [Except.ok.injEq] at hok
        subst hok
        exact hinvMid

/-- A successful `indexFile` preserves the store invariant, and no
surviving match row references any of the freshly inserted rowids. -/
theorem indexFile_inv (now mtime size : Int) (path project : String)
    (msgs : List Message) (st st' : StoreState) (ids : List Nat)
    (hinv : StoreInv st)
    (h : indexFile now mtime size path project msgs st = some (st', ids)) :
    StoreInv st' ∧ (∀ wm ∈ st'.watchMatches, ¬ wm.messageId ∈ ids) := by
  obtain ⟨hpairs, hstale, hmsgpair, hmsgbound, hwpair, hwbound, hmw⟩ := hinv
  have hidsge : ∀ i ∈ (insertMsgs (sessionIdOfPath path) msgs st.nextMsgId SessAgg.init).ids,
      st.nextMsgId ≤ i := insertMsgs_ids_ge _ _ _ _
  unfold indexFile at h
  cases hfind : st.files.find? (fun f => f.path == path) with
  | none =>
    rw [hfind] at h
    dsimp only at h
    split at h
    · exact absurd h (by simp)
    · split at h
      · exact absurd h (by simp)
      · simp only [Option.some.injEq, Prod.mk.injEq] at h
        obtain ⟨hst, hids⟩ := h
        subst hst
        subst hids
        constructor
        · refine ⟨hpairs, ?_, ?_, ?_, hwpair, hwbound, hmw⟩
          · intro wm hwm
            obtain ⟨m, hm, hid⟩ := hstale wm hwm
            exact ⟨m, List.mem_append_left _ hm, hid⟩
          · rw [List.pairwise_append]
            refine ⟨hmsgpair, ?_, ?_⟩
            · rw [insertMsgs_rows]
              exact mkMsgRows_id_pairwise _ _ _
            · intro a ha b hb
              rw [insertMsgs_rows] at hb
              have h1 := hmsgbound a ha
              have h2 := (mkMsgRows_id_bounds _ _ _ b hb).1
              omega
          · intro m hm
            rcases List.mem_append.mp hm with hl | hr
            · have := hmsgbound m hl
              rw [insertMsgs_nextId]
              dsimp only
              omega
            · rw [insertMsgs_rows] at hr
              have := (mkMsgRows_id_bounds _ _ _ m hr).2
              rw [insertMsgs_nextId]
              dsimp only
              omega
        · intro wm hwm hmemids
          obtain ⟨m, hm, hid⟩ := hstale wm hwm
          have h1 := hmsgbound m hm
          have h2 := hidsge _ hmemids
          omega
  | some old =>
    rw [hfind] at h
    dsimp only at h
    split at h
    · exact absurd h (by simp)
    · split at h
      · exact absurd h (by simp)
      · simp only [Option.some.injEq, Prod.mk.injEq] at h
        obtain ⟨hst, hids⟩ := h
        subst hst
        subst hids
        have hsurvive : ∀ wm ∈ st.watchMatches.filter (fun wm =>
            !(((st.messages.filter (fun m => m.sessionId == sessionIdOfPath path)).map
              (fun m => m.id)).contains wm.messageId)),
            ∃ m ∈ st.messages.filter (fun m => !(m.sessionId == sessionIdOfPath path)),
              m.id = wm.messageId := by
          intro wm hwm
          obtain ⟨hwm0, hnc⟩ := List.mem_filter.mp hwm
          obtain ⟨m, hm, hid⟩ := hstale wm hwm0
          refine ⟨m, List.mem_filter.mpr ⟨hm, ?_⟩, hid⟩
          have hnotin : wm.messageId ∉ ((st.messages.filter
              (fun m => m.sessionId == sessionIdOfPath path)).map (fun m => m.id)) := by
            simpa using hnc
          simp only [Bool.not_eq_eq_eq_not, Bool.not_true, beq_eq_false_iff_ne]
          intro hsid
          apply hnotin
          rw [← hid]
          exact List.mem_map_of_mem _ (List.mem_filter.mpr ⟨hm, by simp [hsid]⟩)
        constructor
        · refine ⟨hpairs.sublist (List.filter_sublist _), ?_, ?_, ?_, hwpair, hwbound, ?_⟩
          · intro wm hwm
            obtain ⟨m, hm, hid⟩ := hsurvive wm hwm
            exact ⟨m, List.mem_append_left _ hm, hid⟩
          · rw [List.pairwise_append]
            refine ⟨hmsgpair.sublist (List.filter_sublist _), ?_, ?_⟩
            · rw [insertMsgs_rows]
              exact mkMsgRows_id_pairwise _ _ _
            · intro a ha b hb
              rw [insertMsgs_rows] at hb
              have h1 := hmsgbound a (List.mem_of_mem_filter ha)
              have h2 := (mkMsgRows_id_bounds _ _ _ b hb).1
              omega
          · intro m hm
            rcases List.mem_append.mp hm with hl | hr
            · have := hmsgbound m (List.mem_of_mem_filter hl)
              rw [insertMsgs_nextId]
              dsimp only
              omega
            · rw [insertMsgs_rows] at hr
              have := (mkMsgRows_id_bounds _ _ _ m hr).2
              rw [insertMsgs_nextId]
              dsimp only
              omega
          · intro wm hwm
            exact hmw wm (List.mem_of_mem_filter hwm)
        · intro wm hwm hmemids
          obtain ⟨m, hm, hid⟩ := hstale wm (List.mem_of_mem_filter hwm)
          have h1 := hmsgbound m hm
          have h2 := hidsge _ hmemids
          omega

/-- The watch loop of `MatchNewMessages` preserves the store invariant
when no existing match row of a pending subscription references a
scanned id. -/
theorem matchNewLoop_inv (compile : String → Option GoRegex) (ids : List Nat) :
    ∀ (ws : List WatchRec) (st : StoreState),
      ws.Pairwise (fun a b => a.id ≠ b.id) →
      (∀ w ∈ ws, w ∈ st.watchlist) →
      StoreInv st →
      (∀ wm ∈ st.watchMatches, wm.watchlistId ∈ ws.map (fun w => w.id) →
        ¬ wm.messageId ∈ ids) →
      StoreInv (matchNewLoop compile ids ws st) := by
  intro ws
  induction ws with
  | nil => intro st _ _ hinv _; exact hinv
  | cons w rest ih =>
    intro st hwp hwmem hinv hfresh
    obtain ⟨hwph, hwpt⟩ := List.pairwise_cons.mp hwp
    rw [matchNewLoop]
    cases hact : (w.enabled && (compile w.pattern).isSome) with
    | false =>
      simp only [Bool.false_eq_true, if_false]
      exact ih st hwpt (fun w' hw' => hwmem w' (List.mem_cons_of_mem _ hw')) hinv
        (fun wm hwmm hmem => hfresh wm hwmm
          (by rw [List.map_cons]; exact List.mem_cons_of_mem _ hmem))
    | true =>
      simp only [if_true]
      cases hcp : compile w.pattern with
      | none =>
        rw [hcp] at hact
        simp at hact
      | some re =>
        simp only [hcp]
        apply ih
        · exact hwpt
        · intro w' hw'
          exact hwmem w' (List.mem_cons_of_mem _ hw')
        · obtain ⟨hpairs, hstale, hmsgpair, hmsgbound, hwpair, hwbound, hmw⟩ := hinv
          refine ⟨?_, ?_, hmsgpair, hmsgbound, hwpair, hwbound, ?_⟩
          · apply matchPairs_append _ _ re _ _ hpairs
              (hmsgpair.sublist (List.filter_sublist _))
            intro wm hwm0 hweq m hmrows
            have hmemids : m.id ∈ ids := by
              have := (List.mem_filter.mp hmrows).2
              simpa using this
            have hni := hfresh wm hwm0
              (by rw [hweq, List.map_cons]; exact List.mem_cons_self _ _)
            intro hideq
            exact hni (hideq ▸ hmemids)
          · intro wm hwmm
            rcases List.mem_append.mp hwmm with hl | hr
            · exact hstale wm hl
            · obtain ⟨_, m, hmr, hid⟩ := matchRowsFor_mem _ re _ _ wm hr
              exact ⟨m, List.mem_of_mem_filter hmr, hid⟩
          · intro wm hwmm
            rcases List.mem_append.mp hwmm with hl | hr
            · exact hmw wm hl
            · obtain ⟨hwid, _⟩ := matchRowsFor_mem _ re _ _ wm hr
              exact ⟨w, hwmem w (List.mem_cons_self _ _), hwid.symm⟩
        · intro wm hwmm hmem
          rcases List.mem_append.mp hwmm with hl | hr
          · exact hfresh wm hl (by rw [List.map_cons]; exact List.mem_cons_of_mem _ hmem)
          · obtain ⟨hwid, _⟩ := matchRowsFor_mem _ re _ _ wm hr
            exfalso
            obtain ⟨w', hw', hid'⟩ := List.mem_map.mp hmem
            exact hwph w' hw' (hid'.trans hwid).symm

/-- `MatchNewMessages` preserves the store invariant when the given ids
appear in no existing match row. -/
theorem matchNewMessages_inv (compile : String → Option GoRegex)
    (messageIDs : List Nat) (st : StoreState)
    (hinv : StoreInv st)
    (hfresh : ∀ wm ∈ st.watchMatches, ¬ wm.messageId ∈ messageIDs) :
    StoreInv (matchNewMessages compile messageIDs st) := by
  unfold matchNewMessages
  split
  · exact hinv
  · exact matchNewLoop_inv compile messageIDs st.watchlist st
      hinv.2.2.2.2.1 (fun w hw => hw) hinv (fun wm hwm _ => hfresh wm hwm)

/-- Every store operation preserves the store invariant. -/
theorem applyOp_inv (compile : String → Option GoRegex) (st : StoreState) (op : Op)
    (hinv : StoreInv st) : StoreInv (applyOp compile st op) := by
  cases op with
  | index now mtime size path project msgs =>
    simp only [applyOp]
    cases h : indexFile now mtime size path project msgs st with
    | none => exact hinv
    | some r =>
      obtain ⟨st', ids⟩ := r
      dsimp only
      obtain ⟨hinv', hfresh⟩ := indexFile_inv now mtime size path project msgs st st' ids hinv h
      exact matchNewMessages_inv compile ids st' hinv' hfresh
  | add name pattern color now =>
    simp only [applyOp]
    cases h : addWatch compile name pattern color now st with
    | error e => exact hinv
    | ok r =>
      obtain ⟨item, st2⟩ := r
      exact addWatch_inv compile name pattern color now st st2 item hinv h
  | update id name pattern =>
    simp only [applyOp]
    cases h : updateWatch compile id name pattern st with
    | error e => exact hinv
    | ok st2 => exact updateWatch_inv compile id name pattern st st2 hinv h
  | remove id => exact removeWatch_inv id st hinv
  | toggle id => exact toggleWatch_inv id st hinv

/-- The freshly created schema satisfies the store invariant. -/
theorem storeInv_initial : StoreInv initialState := by
  refine ⟨List.Pairwise.nil, ?_, List.Pairwise.nil, ?_, List.Pairwise.nil, ?_, ?_⟩ <;>
    intro x hx <;> exact absurd hx (List.not_mem_nil _)

/-- Folding operations preserves the store invariant. -/
theorem foldl_applyOp_inv (compile : String → Option GoRegex) (l : List Op) :
    ∀ st, StoreInv st → StoreInv (l.foldl (applyOp compile) st) := by
  induction l with
  | nil => intro st h; exact h
  | cons op rest ih => intro st h; exact ih _ (applyOp_inv compile st op h)

/-- C2: at every state reachable by indexing steps (each one a
successful `indexFile` followed by `MatchNewMessages` over exactly the
freshly inserted rowids, as `IndexAll`/`IndexChanged` invoke it) and
watchlist operations (`AddWatch` with its backfill, `UpdateWatch` with
its delete-then-re-backfill, `RemoveWatch`, `ToggleWatch`), the match
table holds at most one row per (subscription, message) pair and no
stale row: every match references a live message. -/
theorem watch_match_rows_unique (compile : String → Option GoRegex) (ops : List Op) :
    MatchPairsUnique (runOps compile ops).watchMatches ∧
    NoStaleMatches (runOps compile ops) := by
  have h := foldl_applyOp_inv compile ops initialState storeInv_initial
  exact ⟨h.1, h.2.1⟩

end Clog
